import Mathlib

/-!
Verification development for the task-runner orchestration pipeline.

The definitions below are shallow embeddings of the TypeScript sources:
  * src/agents/registry.ts        (role registry: validation, resolution)
  * src/agents/spawn.ts           (resolveSpawnTools: effective caps)
  * src/agents/failure-analysis.ts (transcript pattern classification)
  * src/agents/proposals.ts       (escalation proposal CRUD)
  * src/runner/run-issue.ts       (pipeline retry loop, PR-link step)
  * src/runner/run-issue.test.ts  (postPRLink retry + fallback logic)
  * src/concurrency.ts            (bounded-concurrency worker pool)

Machine floats (confidence scores, budgets) are modelled exactly: the
confidence constants 0.9/0.8/0.5/0.3 are represented as the percentages
90/80/50/30, and dollar budgets as rationals.  JavaScript regular
expressions appearing in the sources are hand-compiled to explicit
scanners over character lists; `exec` loops with `lastIndex` are
modelled by fuel-indexed scans that resume after each match, exactly as
the global-flag regexes do.
-/

namespace TaskRunner

/-- JavaScript `[...new Set(xs)]`: order-preserving first-occurrence
deduplication, used by the registry and proposal code. -/
def dedupSet (xs : List String) : List String :=
  xs.foldl (fun acc t => if t ∈ acc then acc else acc ++ [t]) []

/-- Decidable equality for `Except`, used by concrete evaluations. -/
instance {e a : Type} [DecidableEq e] [DecidableEq a] : DecidableEq (Except e a) := fun x y =>
  match x, y with
  | Except.ok v, Except.ok v2 =>
      if h : v = v2 then isTrue (by rw [h]) else isFalse (fun he => h (by injection he))
  | Except.ok _, Except.error _ => isFalse (fun he => by cases he)
  | Except.error _, Except.ok _ => isFalse (fun he => by cases he)
  | Except.error v, Except.error v2 =>
      if h : v = v2 then isTrue (by rw [h]) else isFalse (fun he => h (by injection he))

/- ### Registry (src/agents/registry.ts) -/

/-- Audit metadata attached to a role definition. -/
structure AuditInfo where
  createdBy : String
  createdAt : String
  reason : String
deriving DecidableEq, Repr

/-- One entry of agent-registry.json (`AgentTypeDefinition`). -/
structure AgentTypeDefinition where
  description : String
  «extends» : Option String
  tools : List String
  maxBudgetUsd : ℚ
  maxTurns : Nat
  audit : Option AuditInfo
deriving DecidableEq, Repr

/-- The registry: `Record<string, AgentTypeDefinition>` as an
association list in insertion order (JS object key order). -/
abbrev AgentRegistry := List (String × AgentTypeDefinition)

/-- `registry[name]` lookup. -/
def lookupType (registry : AgentRegistry) (name : String) : Option AgentTypeDefinition :=
  (registry.find? (fun e => e.1 = name)).map (fun e => e.2)

/-- `FORBIDDEN_PREFIXES` from registry.ts: patterns never allowed. -/
def FORBIDDEN_PREFIXES : List String :=
  ["Bash(*)", "Bash(sudo", "Bash(git push", "Bash(rm -rf", "Bash(curl", "Bash(wget"]

/-- JavaScript `s.startsWith(pre)`, written over character lists so that
it evaluates in the kernel. -/
def jsStartsWith (s pre : String) : Bool :=
  pre.toList.isPrefixOf s.toList

/-- JavaScript truthiness of an optional string: `undefined` and the
empty string are falsy. -/
def truthyString : Option String → Option String
  | some s => if s = "" then none else some s
  | none => none

/-- The `extends` target of a role as the JS truthiness test
`def.extends` sees it. -/
def extendsTarget (d : AgentTypeDefinition) : Option String :=
  truthyString d.«extends»

/-- The matching rule of `validateRegistry`:
`FORBIDDEN_PREFIXES.find((prefix) => tool === prefix || tool.startsWith(prefix))`. -/
def forbiddenHit (tool : String) : Option String :=
  FORBIDDEN_PREFIXES.find? (fun p => tool = p || jsStartsWith tool p)

/-- The parent definition consulted by `def.extends && def.extends in
registry` (none when there is no truthy `extends` or the target is
absent). -/
def parentDef (registry : AgentRegistry) (d : AgentTypeDefinition) :
    Option AgentTypeDefinition :=
  match extendsTarget d with
  | some e => lookupType registry e
  | none => none

/-- The tool list `validateRegistry` checks given the optional parent:
resolved (inherited) when the parent exists, raw otherwise. -/
def resolvedToolsVia (d : AgentTypeDefinition) : Option AgentTypeDefinition → List String
  | some parent => dedupSet (parent.tools ++ d.tools)
  | none => d.tools

/-- `toolsToCheck` in `validateRegistry`. -/
def toolsToCheck (registry : AgentRegistry) (d : AgentTypeDefinition) : List String :=
  resolvedToolsVia d (parentDef registry d)

/-- The multi-level-inheritance check `if (parent.extends) throw`. -/
def checkChain (name e : String) : Option String → Except String Unit
  | some pe =>
      Except.error ("Agent type \"" ++ name ++ "\" extends \"" ++ e ++
        "\" which itself extends \"" ++ pe ++ "\". Only single-level inheritance is allowed.")
  | none => Except.ok ()

/-- The unknown-target check `if (def.extends && !(def.extends in
registry)) throw`, followed by the chain check. -/
def checkParent (registry : AgentRegistry) (name e : String) : Except String Unit :=
  match lookupType registry e with
  | none =>
      Except.error ("Agent type \"" ++ name ++ "\" extends \"" ++ e ++
        "\" which does not exist in the registry.")
  | some parent => checkChain name e (truthyString parent.«extends»)

/-- The `extends` checks of one entry. -/
def checkExtends (registry : AgentRegistry) (name : String) (d : AgentTypeDefinition) :
    Except String Unit :=
  match extendsTarget d with
  | some e => checkParent registry name e
  | none => Except.ok ()

/-- Validation of a single registry entry, in the order the loop body of
`validateRegistry` performs its checks: forbidden tools first, then the
`extends` checks. -/
def validateEntry (registry : AgentRegistry) (name : String) (d : AgentTypeDefinition) :
    Except String Unit :=
  match (toolsToCheck registry d).find? (fun t => (forbiddenHit t).isSome) with
  | some t =>
      Except.error ("Agent type \"" ++ name ++ "\" has forbidden tool: " ++ t)
  | none => checkExtends registry name d

/-- The `for (const [name, def] of Object.entries(registry))` loop of
`validateRegistry`: validate entries in order, stopping at the first
thrown violation. -/
def validateAll (registry : AgentRegistry) : List (String × AgentTypeDefinition) →
    Except String Unit
  | [] => Except.ok ()
  | e :: rest =>
      match validateEntry registry e.1 e.2 with
      | Except.ok _ => validateAll registry rest
      | Except.error err => Except.error err

/-- `validateRegistry`: validate every entry, throwing on the first
violation (fail-closed). -/
def validateRegistry (registry : AgentRegistry) : Except String Unit :=
  validateAll registry registry

/-- A resolved role (`ResolvedAgentType`). -/
structure ResolvedAgentType where
  name : String
  description : String
  tools : List String
  maxBudgetUsd : ℚ
  maxTurns : Nat
  audit : Option AuditInfo
deriving DecidableEq, Repr

/-- The tool merge of `resolveAgentType` when `extends` is truthy: the
parent's tools first, then the child's, deduplicated.  A dangling parent
reference is a JS runtime TypeError, modelled as an error (validation
prevents it in practice). -/
def mergedTools (d : AgentTypeDefinition) : Option AgentTypeDefinition →
    Except String (List String)
  | some parent => Except.ok (dedupSet (parent.tools ++ d.tools))
  | none => Except.error "TypeError: cannot read tools of undefined parent"

/-- The tool list of `resolveAgentType`: merged when `extends` is truthy,
a copy of the own tools otherwise. -/
def resolveToolsOf (registry : AgentRegistry) (d : AgentTypeDefinition) :
    Except String (List String) :=
  match extendsTarget d with
  | some e => mergedTools d (lookupType registry e)
  | none => Except.ok d.tools

/-- `resolveAgentType`: merge parent tools when `extends` is set,
deduplicate, return the final tool list and caps.  A missing role name
throws, listing is elided. -/
def resolveAgentType (name : String) (registry : AgentRegistry) :
    Except String ResolvedAgentType :=
  match lookupType registry name with
  | none => Except.error ("Agent type \"" ++ name ++ "\" not found in registry.")
  | some d =>
      (resolveToolsOf registry d).map
        (fun tools => ⟨name, d.description, tools, d.maxBudgetUsd, d.maxTurns, d.audit⟩)

/- ### Effective spawn caps (src/agents/spawn.ts) -/

/-- The tool list and caps `resolveSpawnTools` hands to the agent process. -/
structure SpawnCaps where
  tools : List String
  maxTurns : Nat
  maxBudgetUsd : ℚ
deriving DecidableEq, Repr

/-- `resolveSpawnTools`: the registry branch clamps the requested caps to
the role's configured caps with `Math.min`; the legacy tools-file branch
passes the requested caps through; neither option present throws. -/
def resolveSpawnTools (registry : AgentRegistry) (agentType : Option String)
    (toolsFileTools : Option (List String)) (maxTurns : Nat) (maxBudgetUsd : ℚ) :
    Except String SpawnCaps :=
  match truthyString agentType with
  | some at_ =>
      (resolveAgentType at_ registry).map
        (fun r => ⟨r.tools, min maxTurns r.maxTurns, min maxBudgetUsd r.maxBudgetUsd⟩)
  | none =>
      match toolsFileTools with
      | some ts => Except.ok ⟨ts, maxTurns, maxBudgetUsd⟩
      | none => Except.error "SpawnOptions requires either agentType or toolsFile"

/- ### Failure analysis (src/agents/failure-analysis.ts)

The seven `PATTERNS` regexes are hand-compiled to scanners over
`List Char`.  All regexes carry the `i` flag, so literals are compared
case-insensitively; captures keep the original case, as JS captures do. -/

/-- Case-insensitive match of a literal pattern at the head of the input;
returns the remaining input on success. -/
def matchLit : List Char → List Char → Option (List Char)
  | [], s => some s
  | _ :: _, [] => none
  | p :: ps, c :: cs => if c.toLower = p.toLower then matchLit ps cs else none

/-- The `\s` character class (ASCII whitespace as JS sees it here). -/
def isWs (c : Char) : Bool :=
  c = ' ' || c = '\t' || c = '\n' || c = '\r' || c = '\x0b' || c = '\x0c'

/-- The `[_\s]` character class. -/
def isUnderscoreOrWs (c : Char) : Bool := c = '_' || isWs c

/-- One alternative of an alternation: literal, one `[_\s]` char, literal
(compiles `a[_\s]b`). -/
def litClassLit (a b : List Char) (s : List Char) : Option (List Char) :=
  match matchLit a s with
  | none => none
  | some s1 =>
      match s1 with
      | [] => none
      | c :: s2 => if isUnderscoreOrWs c then matchLit b s2 else none

/-- Compiles `a\s+b`: literal, one-or-more whitespace, literal. -/
def litWsLit (a b : List Char) (s : List Char) : Option (List Char) :=
  match matchLit a s with
  | none => none
  | some s1 =>
      let ws := s1.takeWhile isWs
      let s2 := s1.dropWhile isWs
      if ws.isEmpty then none else matchLit b s2

/-- `/tool "([^"]+)" is not allowed/gi` tried at the head of the input:
returns the capture and the input after the match. -/
def p1TryAt (s : List Char) : Option (Option (List Char) × List Char) :=
  match matchLit "tool \"".toList s with
  | none => none
  | some s1 =>
      let cap := s1.takeWhile (fun c => c ≠ '"')
      let s2 := s1.dropWhile (fun c => c ≠ '"')
      if cap.isEmpty then none
      else
        match matchLit "\" is not allowed".toList s2 with
        | none => none
        | some s3 => some (some cap, s3)

/-- `/not in the list of allowed tools/gi` tried at the head (null capture). -/
def p2TryAt (s : List Char) : Option (Option (List Char) × List Char) :=
  (matchLit "not in the list of allowed tools".toList s).map (fun r => (none, r))

/-- `/Bash\(([^)]+)\)\s*(?:is\s+)?not allowed/gi` tried at the head; the
extracted capability is re-wrapped as `Bash(...)` as the rule's
`extractCapability` does.  The optional `is\s+` group is tried greedily
first, matching backtracking order. -/
def p3TryAt (s : List Char) : Option (Option (List Char) × List Char) :=
  match matchLit "Bash(".toList s with
  | none => none
  | some s1 =>
      let cap := s1.takeWhile (fun c => c ≠ ')')
      let s2 := s1.dropWhile (fun c => c ≠ ')')
      if cap.isEmpty then none
      else
        match s2 with
        | ')' :: s3 =>
            let s4 := s3.dropWhile isWs
            let capability := some ("Bash(".toList ++ cap ++ [')'])
            match litWsLit "is".toList "not allowed".toList s4 with
            | some r => some (capability, r)
            | none =>
                match matchLit "not allowed".toList s4 with
                | some r => some (capability, r)
                | none => none
        | _ => none

/-- `/tool\s+"Bash"\s+is not allowed/gi` tried at the head; extracts the
fixed capability `Bash`. -/
def p4TryAt (s : List Char) : Option (Option (List Char) × List Char) :=
  match matchLit "tool".toList s with
  | none => none
  | some s1 =>
      let ws1 := s1.takeWhile isWs
      let s2 := s1.dropWhile isWs
      if ws1.isEmpty then none
      else
        match matchLit "\"Bash\"".toList s2 with
        | none => none
        | some s3 =>
            let ws2 := s3.takeWhile isWs
            let s4 := s3.dropWhile isWs
            if ws2.isEmpty then none
            else
              (matchLit "is not allowed".toList s4).map
                (fun r => (some "Bash".toList, r))

/-- `/permission[_\s]denied|access[_\s]denied|not\s+permitted/gi` tried at
the head (null capture). -/
def p5TryAt (s : List Char) : Option (Option (List Char) × List Char) :=
  match litClassLit "permission".toList "denied".toList s with
  | some r => some (none, r)
  | none =>
      match litClassLit "access".toList "denied".toList s with
      | some r => some (none, r)
      | none =>
          (litWsLit "not".toList "permitted".toList s).map (fun r => (none, r))

/-- `/max budget exceeded|budget[_\s]exhausted|spending limit/gi` tried at
the head. -/
def p6TryAt (s : List Char) : Option (Option (List Char) × List Char) :=
  match matchLit "max budget exceeded".toList s with
  | some r => some (none, r)
  | none =>
      match litClassLit "budget".toList "exhausted".toList s with
      | some r => some (none, r)
      | none =>
          (matchLit "spending limit".toList s).map (fun r => (none, r))

/-- `/timed out|SIGTERM|ETIMEDOUT|timeout/gi` tried at the head.  Note the
bare `timeout` alternative: a raw substring, with no word boundary. -/
def p7TryAt (s : List Char) : Option (Option (List Char) × List Char) :=
  match matchLit "timed out".toList s with
  | some r => some (none, r)
  | none =>
      match matchLit "SIGTERM".toList s with
      | some r => some (none, r)
      | none =>
          match matchLit "ETIMEDOUT".toList s with
          | some r => some (none, r)
          | none => (matchLit "timeout".toList s).map (fun r => (none, r))

/-- The `while ((match = rule.pattern.exec(combined)) !== null)` loop of a
`g`-flag regex: find the leftmost match, record its capture, resume after
it.  Fuel bounds the recursion; every pattern consumes at least one
character, so `input.length + 1` fuel is exact. -/
def scanMatches (tryAt : List Char → Option (Option (List Char) × List Char)) :
    Nat → List Char → List (Option (List Char))
  | 0, _ => []
  | fuel + 1, s =>
      match tryAt s with
      | some (cap, rest) => cap :: scanMatches tryAt fuel rest
      | none =>
          match s with
          | [] => []
          | _ :: tail => scanMatches tryAt fuel tail

/-- All matches of one pattern over the whole input, in match order. -/
def execAll (tryAt : List Char → Option (Option (List Char) × List Char))
    (s : List Char) : List (Option (List Char)) :=
  scanMatches tryAt (s.length + 1) s

/-- Failure categories of `FailureAnalysis["category"]`. -/
inductive FailureCategory where
  | permission_denied
  | budget_exhausted
  | timeout
  | implementation_error
deriving DecidableEq, Repr

/-- `FailureAnalysis`; `confidencePercent` is the JS confidence float
scaled by 100 (0.9 ↦ 90, 0.8 ↦ 80, 0.5 ↦ 50, 0.3 ↦ 30). -/
structure FailureAnalysis where
  category : FailureCategory
  missingCapabilities : List String
  suggestedTools : List String
  confidencePercent : Nat
deriving DecidableEq, Repr

/-- One entry of the ordered `PATTERNS` table. -/
structure PatternRule where
  tryAt : List Char → Option (Option (List Char) × List Char)
  category : FailureCategory

/-- The `PATTERNS` table, in source order. -/
def PATTERNS : List PatternRule :=
  [⟨p1TryAt, .permission_denied⟩,
   ⟨p2TryAt, .permission_denied⟩,
   ⟨p3TryAt, .permission_denied⟩,
   ⟨p4TryAt, .permission_denied⟩,
   ⟨p5TryAt, .permission_denied⟩,
   ⟨p6TryAt, .budget_exhausted⟩,
   ⟨p7TryAt, .timeout⟩]

/-- The body of `if (capability && !seen.has(capability)) { seen.add;
push }`: empty captures are falsy in JS and skipped, duplicates are
skipped, anything else is appended. -/
def insertCap (acc : List String) (cap : String) : List String :=
  if cap = "" then acc else if cap ∈ acc then acc else acc ++ [cap]

/-- The permission-denial collection step over one rule's matches. -/
def collectCaps (caps : List String) (ms : List (Option (List Char))) : List String :=
  (ms.filterMap (fun m => m.map (fun c => String.mk c))).foldl insertCap caps

/-- `normalizeTool`: capability name to tool specification. -/
def normalizeTool (capability : String) : String :=
  if jsStartsWith capability "Bash(" then capability
  else if capability ∈ ["Read", "Write", "Edit", "Grep", "Glob"] then capability
  else "Bash(" ++ capability ++ ":*)"

/-- Case-insensitive substring presence of a literal. -/
def containsLit (pat : List Char) : List Char → Bool
  | [] => (matchLit pat []).isSome
  | c :: tail => (matchLit pat (c :: tail)).isSome || containsLit pat tail

/-- The generic fallback test `/permission|not allowed|denied/i`. -/
def genericPermissionTest (s : List Char) : Bool :=
  containsLit "permission".toList s || containsLit "not allowed".toList s ||
    containsLit "denied".toList s

/-- The rule loop of `analyzeFailure`: permission rules accumulate
captures and continue; the first matching non-permission rule returns its
category immediately (confidence 0.8). -/
def analyzeLoop (combined : List Char) : List PatternRule → List String → FailureAnalysis
  | [], caps =>
      if caps ≠ [] then
        ⟨.permission_denied, caps, caps.map normalizeTool, 90⟩
      else if genericPermissionTest combined then
        ⟨.permission_denied, [], [], 50⟩
      else
        ⟨.implementation_error, [], [], 30⟩
  | r :: rest, caps =>
      let ms := execAll r.tryAt combined
      if r.category = .permission_denied then
        analyzeLoop combined rest (collectCaps caps ms)
      else if !ms.isEmpty then
        ⟨r.category, [], [], 80⟩
      else
        analyzeLoop combined rest caps

/-- The combined transcript `` `${stdout}\n${stderr}` ``. -/
def combinedOutput (stdout stderr : String) : List Char :=
  (stdout ++ "\n" ++ stderr).toList

/-- `analyzeFailure(stdout, stderr)`. -/
def analyzeFailure (stdout stderr : String) : FailureAnalysis :=
  analyzeLoop (combinedOutput stdout stderr) PATTERNS []

/-- Every capability extracted by the five capability-denial patterns, in
rule order then match order — the exhaustive structured-denial matches of
a transcript (the second and fifth rules extract nothing by design). -/
def structuredDenials (s : List Char) : List String :=
  ((execAll p1TryAt s) ++ (execAll p2TryAt s) ++ (execAll p3TryAt s) ++
      (execAll p4TryAt s) ++ (execAll p5TryAt s)).filterMap
    (fun m => m.map (fun c => String.mk c))

/- ### Escalation proposals (src/agents/proposals.ts) -/

/-- The fields of a Linear issue the proposal code reads. -/
structure LinearIssueM where
  id : String
  identifier : String
  title : String
  teamKey : String
  labels : List String
deriving DecidableEq, Repr

/-- Proposal status. -/
inductive ProposalStatus where
  | pending
  | approved
  | rejected
deriving DecidableEq, Repr

/-- `AgentProposal` as written to `<id>.json`. -/
structure AgentProposal where
  id : String
  issueIdentifier : String
  issueTitle : String
  baseAgentType : String
  proposedAgentType : String
  proposedTools : List String
  proposedMaxBudgetUsd : ℚ
  proposedMaxTurns : Nat
  failureAnalysis : FailureAnalysis
  status : ProposalStatus
  createdAt : String
  rejectionReason : Option String
  resolvedAt : Option String
deriving DecidableEq, Repr

/-- `writeFileSync(proposalPath(p.id), ...)`: create or overwrite the
file keyed by the proposal id. -/
def writeProposalFile (store : List AgentProposal) (p : AgentProposal) : List AgentProposal :=
  if store.any (fun q => q.id = p.id) then
    store.map (fun q => if q.id = p.id then p else q)
  else
    store ++ [p]

/-- `createProposal`: resolve the base role, union its tools with the
suggested missing capabilities, generate a fresh id (the `randomUUID()`
call is modelled by the `freshId` parameter) and write the new pending
proposal.  The Linear label/comment side effects are best-effort
(try/caught) and do not touch the store, so they are not modelled.
Note: the shipped code performs no search of existing pending proposals
before creating. -/
def buildProposal (issue : LinearIssueM) (baseAgentType : String)
    (baseResolved : ResolvedAgentType) (failureAnalysis : FailureAnalysis)
    (freshId createdAt : String) : AgentProposal :=
  ⟨freshId, issue.identifier, issue.title, baseAgentType,
   baseAgentType ++ "-" ++ issue.identifier.toLower,
   dedupSet (baseResolved.tools ++ failureAnalysis.suggestedTools),
   baseResolved.maxBudgetUsd, baseResolved.maxTurns, failureAnalysis,
   .pending, createdAt, none, none⟩

def createProposal (registry : AgentRegistry) (issue : LinearIssueM)
    (baseAgentType : String) (failureAnalysis : FailureAnalysis)
    (freshId createdAt : String) (store : List AgentProposal) :
    Except String (AgentProposal × List AgentProposal) :=
  match resolveAgentType baseAgentType registry with
  | Except.error e => Except.error e
  | Except.ok baseResolved =>
      let p := buildProposal issue baseAgentType baseResolved failureAnalysis freshId createdAt
      Except.ok (p, writeProposalFile store p)

/-- The pending proposals stored for a given (ticket, base role) pair. -/
def pendingFor (store : List AgentProposal) (ticket baseRole : String) : List AgentProposal :=
  store.filter (fun p =>
    p.status = ProposalStatus.pending && p.issueIdentifier = ticket &&
      p.baseAgentType = baseRole)

/- ### Proposal storage paths (src/agents/proposals.ts) -/

/-- Split a character list on a separator (the semantics of
`String.split` on a single-character separator, written structurally). -/
def splitOnChar (sep : Char) : List Char → List (List Char)
  | [] => [[]]
  | c :: cs =>
      let rest := splitOnChar sep cs
      if c = sep then [] :: rest
      else
        match rest with
        | [] => [[c]]
        | seg :: segs => (c :: seg) :: segs

/-- Normalization step of Node's `path.resolve`: `..` pops a component,
`.` and empty segments vanish. -/
def normalizeSegs (acc : List String) : List String → List String
  | [] => acc
  | seg :: rest =>
      if seg = "" || seg = "." then normalizeSegs acc rest
      else if seg = ".." then normalizeSegs acc.dropLast rest
      else normalizeSegs (acc ++ [seg]) rest

/-- `resolve(base, rel)` for a relative `rel`, as a component list. -/
def resolvePath (base : List String) (rel : String) : List String :=
  normalizeSegs base ((splitOnChar '/' rel.toList).map (fun seg => String.mk seg))

/-- The `PROPOSALS_DIR` directory, as a component list. -/
def PROPOSALS_DIR : List String := ["repo", "src", "agents", "proposals"]

/-- `proposalPath(id)`: `resolve(PROPOSALS_DIR, id + ".json")` with no
validation of `id`. -/
def proposalPath (id : String) : List String :=
  resolvePath PROPOSALS_DIR (id ++ ".json")

/-- Whether a resolved path stays inside the proposals directory. -/
def isWithinProposalsDir (p : List String) : Bool :=
  PROPOSALS_DIR.isPrefixOf p

/-- `getProposal(id)`: read the file at `proposalPath(id)` from the
filesystem (modelled as a map from component paths to stored proposals);
the only error is a missing file. -/
def getProposal (fs : List String → Option AgentProposal) (id : String) :
    Except String AgentProposal :=
  match fs (proposalPath id) with
  | none => Except.error ("Proposal not found: " ++ id)
  | some p => Except.ok p

/-- Modelled from the spec: the fixed generated-identifier (UUID) format
that `get(id)` must validate before building any storage path.  The
shipped `proposalPath` performs no such check; this definition exists to
state what an id failing the format looks like. -/
def isUuidFormat (id : String) : Bool :=
  match splitOnChar '-' id.toList with
  | [a, b, c, d, e] =>
      a.length = 8 && b.length = 4 && c.length = 4 && d.length = 4 && e.length = 12 &&
        (a ++ b ++ c ++ d ++ e).all
          (fun ch => ('0' ≤ ch && ch ≤ '9') || ('a' ≤ ch.toLower && ch.toLower ≤ 'f'))
  | _ => false

/- ### PR-link step (src/runner/run-issue.ts step 11, and the
`postPRLink` retry + fallback logic pinned by src/runner/run-issue.test.ts) -/

/-- Ticket-side state the link step can touch: posted comments, the issue
description, and the count of logged warnings. -/
structure LinkState where
  comments : List String
  description : Option String
  warnings : Nat
deriving DecidableEq, Repr

/-- Step 11 of the shipped pipeline: one `addComment` call inside
try/catch; on failure only a warning is logged. -/
def linkPRToLinear (addCommentOk : Bool) (prUrl : String) (st : LinkState) : LinkState :=
  if addCommentOk then
    { st with comments := st.comments ++ ["🤖 PR created: " ++ prUrl] }
  else
    { st with warnings := st.warnings + 1 }

/-- The retry loop of `postPRLink` (`for attempt = 1..maxRetries`): post
the comment, returning early on success; each failed attempt logs a
warning.  Returns whether a comment was posted. -/
def postPRLinkRetry (addCommentOk : Nat → Bool) (msg : String) :
    Nat → Nat → LinkState → Bool × LinkState
  | 0, _, st => (false, st)
  | fuel + 1, attempt, st =>
      if addCommentOk attempt then
        (true, { st with comments := st.comments ++ [msg] })
      else
        postPRLinkRetry addCommentOk msg fuel (attempt + 1)
          { st with warnings := st.warnings + 1 }

/-- `postPRLink` as pinned by run-issue.test.ts: `maxRetries = 2`
comment attempts, then a best-effort fallback that appends
`"\n\nPR: " + prUrl` to the issue description (`existingDescription ?? ""`). -/
def postPRLink (addCommentOk : Nat → Bool) (updateIssueOk : Bool) (prUrl : String)
    (st : LinkState) : LinkState :=
  match postPRLinkRetry addCommentOk ("🤖 PR created: " ++ prUrl) 2 1 st with
  | (true, st1) => st1
  | (false, st1) =>
      if updateIssueOk then
        { st1 with description := some ((st1.description.getD "") ++ "\n\nPR: " ++ prUrl) }
      else
        { st1 with warnings := st1.warnings + 1 }

/- ### Pipeline retry loop (src/runner/run-issue.ts step 6/6.5) -/

/-- The fields of `AgentResult` the retry loop inspects. -/
structure AgentResultM where
  success : Bool
  output : String
  stderr : String
  exitCode : Option Int
deriving DecidableEq, Repr

/-- How the retry loop terminated. -/
inductive LoopOutcome where
  | permissionFailure (attempt : Nat)
  | validationExhausted (attempt : Nat)
  | validated (attempt : Nat)
  | attemptsExhausted
deriving DecidableEq, Repr

/-- Result of the retry loop: the outcome, the ordinals of the agent
attempts actually executed (the call trace of `spawnAgent`), and the
proposal store after the run. -/
structure LoopResult where
  outcome : LoopOutcome
  executed : List Nat
  store : List AgentProposal
deriving DecidableEq, Repr

/-- One pass of `for (attempts = 1; attempts <= maxAttempts; attempts++)`:
execute the agent; on failure classify the transcript, and if the
category is permission-denied create a proposal (errors caught) and
return failure at once; otherwise continue.  On success validate; valid
breaks, invalid with attempts left retries, invalid at the cap returns
failure.  The `agent` and `validate` oracles model the external agent
execution and output validation per attempt ordinal; `fuel` counts the
loop iterations left. -/
def runAttemptsGo (registry : AgentRegistry) (issue : LinearIssueM) (agentType : String)
    (agent : Nat → AgentResultM) (validate : Nat → Bool) (freshId createdAt : String)
    (maxAttempts : Nat) :
    Nat → Nat → List Nat → List AgentProposal → LoopResult
  | 0, _, executed, store => ⟨.attemptsExhausted, executed, store⟩
  | fuel + 1, attempt, executed, store =>
      let res := agent attempt
      let executed1 := executed ++ [attempt]
      if res.success then
        if validate attempt then
          ⟨.validated attempt, executed1, store⟩
        else if maxAttempts ≤ attempt then
          ⟨.validationExhausted attempt, executed1, store⟩
        else
          runAttemptsGo registry issue agentType agent validate freshId createdAt
            maxAttempts fuel (attempt + 1) executed1 store
      else
        let analysis := analyzeFailure res.output res.stderr
        if analysis.category = FailureCategory.permission_denied then
          let store1 :=
            match createProposal registry issue agentType analysis freshId createdAt store with
            | Except.ok (_, s) => s
            | Except.error _ => store
          ⟨.permissionFailure attempt, executed1, store1⟩
        else
          runAttemptsGo registry issue agentType agent validate freshId createdAt
            maxAttempts fuel (attempt + 1) executed1 store

/-- The retry loop entered at attempt 1 with an empty trace. -/
def runAttempts (registry : AgentRegistry) (issue : LinearIssueM) (agentType : String)
    (agent : Nat → AgentResultM) (validate : Nat → Bool) (freshId createdAt : String)
    (maxAttempts : Nat) (store : List AgentProposal) : LoopResult :=
  runAttemptsGo registry issue agentType agent validate freshId createdAt maxAttempts
    maxAttempts 1 [] store

/- ### Bounded-concurrency worker pool (src/concurrency.ts)

`runWithConcurrency` is cooperative JS: workers interleave only at
`await` points.  The pool is modelled as a small-step system; a schedule
(list of worker indices) chooses which worker advances at each step,
covering every possible completion order.  A worker step is one segment
between `await`s: a ready worker claims the shared index (`index++`) and
starts its job; a working worker observes its job settle, writing
`results[i]` on success or stopping for good on a thrown error. -/

/-- Status of one worker. -/
inductive WStatus where
  | ready
  | working (i : Nat)
  | done
  | dead
deriving DecidableEq, Repr

/-- One worker: its status and the input indices it has claimed. -/
structure Worker where
  status : WStatus
  claims : List Nat
deriving DecidableEq, Repr

/-- Pool state: the shared claim index, the pre-sized result array
(`new Array(items.length)`, holes as `none`), and the workers. -/
structure PoolState (R : Type) where
  index : Nat
  results : List (Option R)
  workers : List Worker
deriving DecidableEq, Repr

/-- The initial pool state: `Math.min(concurrency, items.length)` ready
workers and an all-holes result array of the input length. -/
def initPool (R : Type) (n numWorkers : Nat) : PoolState R :=
  ⟨0, List.replicate n none, List.replicate numWorkers ⟨.ready, []⟩⟩

/-- A ready worker's step: `while (index < items.length) { const i =
index++; ... }` — claim the shared index, or return (settle as done) when
the input is exhausted. -/
def stepReady {R : Type} (n : Nat) (s : PoolState R) (w : Nat) (wk : Worker) : PoolState R :=
  if s.index < n then
    { s with index := s.index + 1,
             workers := s.workers.set w ⟨.working s.index, wk.claims ++ [s.index]⟩ }
  else
    { s with workers := s.workers.set w ⟨.done, wk.claims⟩ }

/-- A working worker's step: its awaited job settles — write
`results[i]` and loop on success, stop for good on a thrown error. -/
def stepWorking {R E : Type} (f : Nat → Except E R) (s : PoolState R) (w : Nat)
    (wk : Worker) (i : Nat) : PoolState R :=
  match f i with
  | Except.ok r =>
      { s with results := s.results.set i (some r),
               workers := s.workers.set w ⟨.ready, wk.claims⟩ }
  | Except.error _ =>
      { s with workers := s.workers.set w ⟨.dead, wk.claims⟩ }

/-- Dispatch one worker's step on its status; settled workers do nothing. -/
def stepDispatch {R E : Type} (f : Nat → Except E R) (n : Nat) (s : PoolState R)
    (w : Nat) (wk : Worker) : PoolState R :=
  match wk.status with
  | WStatus.ready => stepReady n s w wk
  | WStatus.working i => stepWorking f s w wk i
  | WStatus.done => s
  | WStatus.dead => s

/-- One scheduler step: advance worker `w`.  `f i` is the settled outcome
of `fn(items[i])`. -/
def poolStep {R E : Type} (f : Nat → Except E R) (n : Nat) (s : PoolState R) (w : Nat) :
    PoolState R :=
  match s.workers[w]? with
  | none => s
  | some wk => stepDispatch f n s w wk

/-- The invariant the pool maintains: sizes are fixed; every written slot
holds its own job's successful result; every claimed successful job is
written or still being worked; a worker returns (done) only after seeing
the input exhausted; a working worker's last claim is its current item; a
stopped (dead) worker's last claim is an item whose job threw; all claims
are below the shared index and the input length. -/
structure PoolInv {R E : Type} (f : Nat → Except E R) (n W : Nat) (s : PoolState R) :
    Prop where
  results_len : s.results.length = n
  workers_len : s.workers.length = W
  sound : ∀ i r, s.results[i]? = some (some r) → f i = Except.ok r
  claimed_complete : ∀ i, i < s.index → ∀ r, f i = Except.ok r →
    s.results[i]? = some (some r) ∨
      ∃ w : Nat, ∃ wk : Worker, s.workers[w]? = some wk ∧ wk.status = WStatus.working i
  done_n_le : ∀ wk ∈ s.workers, wk.status = WStatus.done → n ≤ s.index
  working_facts : ∀ wk ∈ s.workers, ∀ i, wk.status = WStatus.working i →
    wk.claims.getLast? = some i ∧ i < n ∧ i < s.index
  dead_err : ∀ wk ∈ s.workers, wk.status = WStatus.dead →
    ∃ i e, wk.claims.getLast? = some i ∧ i < n ∧ f i = Except.error e
  claims_bound : ∀ wk ∈ s.workers, ∀ i ∈ wk.claims, i < s.index ∧ i < n

/-- Run the pool under a schedule. -/
def runPool {R E : Type} (f : Nat → Except E R) (n : Nat) (s : PoolState R)
    (σ : List Nat) : PoolState R :=
  σ.foldl (poolStep f n) s

/-- `Promise.allSettled(workers)` has resolved: every worker ran to
completion (returned) or stopped on an error. -/
def Settled {R : Type} (s : PoolState R) : Prop :=
  ∀ wk ∈ s.workers, wk.status = WStatus.done ∨ wk.status = WStatus.dead

instance {R : Type} (s : PoolState R) : Decidable (Settled s) := by
  unfold Settled; infer_instance

/-- The job outcomes the pool consumes, as the source computes them:
`fn(items[i])`. -/
def poolJobs {T R E : Type} [Inhabited T] (items : List T) (job : T → Except E R) :
    Nat → Except E R :=
  fun i => job (items.getD i default)

/-- The sequential (`concurrency <= 1`) path: `results[i] = await
fn(items[i])` in order; a thrown error rejects the whole call. -/
def seqRun {T R E : Type} (job : T → Except E R) :
    List T → List (Option R) → Except E (List (Option R))
  | [], acc => Except.ok acc
  | x :: xs, acc =>
      match job x with
      | Except.ok r => seqRun job xs (acc ++ [some r])
      | Except.error e => Except.error e

/-- `runWithConcurrency(items, concurrency, fn)` under a schedule σ:
sequential when `concurrency <= 1`; otherwise the worker pool runs and,
as `Promise.allSettled` swallows worker rejections, the call resolves
with whatever the result array holds. -/
def runWithConcurrency {T R E : Type} [Inhabited T] (items : List T) (concurrency : Nat)
    (job : T → Except E R) (σ : List Nat) : Except E (List (Option R)) :=
  if concurrency ≤ 1 then
    seqRun job items []
  else
    Except.ok (runPool (poolJobs items job) items.length
      (initPool R items.length (min concurrency items.length)) σ).results

/- ### Concrete fixtures used by evaluation theorems -/

/-- A baseline worker role, as in agent-registry.json. -/
def workerDef : AgentTypeDefinition :=
  ⟨"Implements tickets end-to-end", none,
   ["Read", "Write", "Edit", "Bash(npm test:*)"], 5, 50, none⟩

/-- A registry holding the baseline worker role. -/
def sampleRegistry : AgentRegistry := [("worker", workerDef)]

/-- A sample Linear issue. -/
def sampleIssue : LinearIssueM :=
  ⟨"lin-uuid-1", "JOS-1", "Add feature", "JOS", ["agent-ready"]⟩

/-- A proposal record sitting at an arbitrary storage path. -/
def strayProposal : AgentProposal :=
  ⟨"stray", "JOS-9", "Other", "worker", "worker-jos-9", ["Read"], 5, 50,
   ⟨.permission_denied, [], [], 50⟩, .pending, "2026-02-25", none, none⟩

/-- A filesystem containing one file outside the proposals directory:
`repo/src/agents/registry.json`. -/
def strayFs : List String → Option AgentProposal :=
  fun path => if path = ["repo", "src", "agents", "registry.json"] then some strayProposal else none

/- ### Validation predicates for the registry claims -/

/-- Membership in a role's resolved capability list: an own capability, or
a capability of the parent when the `extends` target exists. -/
def ResolvedCapability (registry : AgentRegistry) (d : AgentTypeDefinition) (t : String) : Prop :=
  t ∈ d.tools ∨
    ∃ e parent, extendsTarget d = some e ∧ lookupType registry e = some parent ∧
      t ∈ parent.tools

/-- The three ways a registry entry can violate validation: a resolved
capability starting with a forbidden pattern, a dangling `extends`
target, or an `extends` target that itself has a parent. -/
def EntryViolation (registry : AgentRegistry) (d : AgentTypeDefinition) : Prop :=
  (∃ t, ResolvedCapability registry d t ∧ ∃ p ∈ FORBIDDEN_PREFIXES, jsStartsWith t p = true) ∨
  (∃ e, extendsTarget d = some e ∧ lookupType registry e = none) ∨
  (∃ e parent, extendsTarget d = some e ∧ lookupType registry e = some parent ∧
    truthyString parent.«extends» ≠ none)

/-- A parentless base role for the inheritance fixtures. -/
def baseDef : AgentTypeDefinition := ⟨"Base role", none, ["Read", "Grep"], 10, 40, none⟩

/-- A child role extending the base role, sharing one capability. -/
def childDef : AgentTypeDefinition :=
  ⟨"Child role", some "base", ["Read", "Bash(npm test:*)"], 5, 30, none⟩

/-- A registry with one level of inheritance. -/
def inheritRegistry : AgentRegistry := [("base", baseDef), ("child", childDef)]

/- ## Theorems -/

/-- All members reached by the insert-if-new fold. -/
theorem mem_foldl_insertNew (xs : List String) (acc : List String) (t : String) :
    (t ∈ xs.foldl (fun acc t => if t ∈ acc then acc else acc ++ [t]) acc) ↔
      t ∈ acc ∨ t ∈ xs := by
  induction xs generalizing acc with
  | nil => simp
  | cons x xs ih =>
      simp only [List.foldl_cons, ih, List.mem_cons]
      by_cases hx : x ∈ acc
      · simp only [if_pos hx]
        constructor
        · rintro (h | h)
          · exact Or.inl h
          · exact Or.inr (Or.inr h)
        · rintro (h | h | h)
          · exact Or.inl h
          · exact Or.inl (h ▸ hx)
          · exact Or.inr h
      · simp only [if_neg hx, List.mem_append, List.mem_singleton]
        tauto

/-- The insert-if-new fold preserves distinctness. -/
theorem nodup_foldl_insertNew (xs : List String) (acc : List String) (h : acc.Nodup) :
    (xs.foldl (fun acc t => if t ∈ acc then acc else acc ++ [t]) acc).Nodup := by
  induction xs generalizing acc with
  | nil => exact h
  | cons x xs ih =>
      simp only [List.foldl_cons]
      by_cases hx : x ∈ acc
      · rw [if_pos hx]; exact ih acc h
      · rw [if_neg hx]
        refine ih _ ?_
        simp only [List.nodup_append, List.nodup_singleton]
        exact ⟨h, trivial, by simpa using hx⟩

/-- `[...new Set(xs)]` keeps exactly the members of `xs`. -/
theorem mem_dedupSet (xs : List String) (t : String) : t ∈ dedupSet xs ↔ t ∈ xs := by
  unfold dedupSet
  rw [mem_foldl_insertNew]
  simp

/-- `[...new Set(xs)]` has no duplicates. -/
theorem nodup_dedupSet (xs : List String) : (dedupSet xs).Nodup :=
  nodup_foldl_insertNew xs [] List.nodup_nil

/-- A string starts with itself. -/
theorem jsStartsWith_self (s : String) : jsStartsWith s s = true := by
  unfold jsStartsWith
  exact List.isPrefixOf_iff_prefix.mpr (List.prefix_refl _)

/-- The forbidden-pattern hit test fires exactly on a forbidden prefix:
the `tool === prefix` disjunct of the source is absorbed by `startsWith`. -/
theorem forbiddenHit_isSome_iff (t : String) :
    (forbiddenHit t).isSome = true ↔
      ∃ p ∈ FORBIDDEN_PREFIXES, jsStartsWith t p = true := by
  unfold forbiddenHit
  rw [List.find?_isSome]
  constructor
  · rintro ⟨p, hp, hpred⟩
    refine ⟨p, hp, ?_⟩
    rcases Bool.or_eq_true _ _ |>.mp hpred with h | h
    · exact (decide_eq_true_eq.mp h) ▸ jsStartsWith_self p
    · exact h
  · rintro ⟨p, hp, hsw⟩
    exact ⟨p, hp, by simp [hsw]⟩

/-- Membership in `toolsToCheck` coincides with resolved-capability
membership. -/
theorem mem_toolsToCheck_iff (registry : AgentRegistry) (d : AgentTypeDefinition)
    (t : String) : t ∈ toolsToCheck registry d ↔ ResolvedCapability registry d t := by
  cases he : extendsTarget d with
  | none =>
      have htc : toolsToCheck registry d = d.tools := by
        unfold toolsToCheck parentDef
        rw [he]
        rfl
      rw [htc]
      unfold ResolvedCapability
      constructor
      · exact fun h => Or.inl h
      · rintro (h | ⟨e1, p1, he1, _, _⟩)
        · exact h
        · rw [he] at he1; cases he1
  | some e =>
      have hpd : parentDef registry d = lookupType registry e := by
        unfold parentDef
        rw [he]
      cases hp : lookupType registry e with
      | none =>
          have htc : toolsToCheck registry d = d.tools := by
            unfold toolsToCheck
            rw [hpd, hp]
            rfl
          rw [htc]
          unfold ResolvedCapability
          constructor
          · exact fun h => Or.inl h
          · rintro (h | ⟨e1, p1, he1, hp1, _⟩)
            · exact h
            · rw [he] at he1
              injection he1 with h1
              subst h1
              rw [hp] at hp1
              cases hp1
      | some parent =>
          have htc : toolsToCheck registry d = dedupSet (parent.tools ++ d.tools) := by
            unfold toolsToCheck
            rw [hpd, hp]
            rfl
          rw [htc, mem_dedupSet, List.mem_append]
          unfold ResolvedCapability
          constructor
          · rintro (h | h)
            · exact Or.inr ⟨e, parent, he, hp, h⟩
            · exact Or.inl h
          · rintro (h | ⟨e1, p1, he1, hp1, hm⟩)
            · exact Or.inr h
            · rw [he] at he1
              injection he1 with h1
              subst h1
              rw [hp] at hp1
              injection hp1 with h2
              subst h2
              exact Or.inl hm

/-- A single registry entry validates cleanly exactly when it has no
violation. -/
theorem validateEntry_ok_iff (registry : AgentRegistry) (name : String)
    (d : AgentTypeDefinition) :
    validateEntry registry name d = Except.ok () ↔ ¬ EntryViolation registry d := by
  cases hf : (toolsToCheck registry d).find? (fun t => (forbiddenHit t).isSome) with
  | some t =>
      have hv : EntryViolation registry d :=
        Or.inl ⟨t, (mem_toolsToCheck_iff registry d t).mp (List.mem_of_find?_eq_some hf),
          (forbiddenHit_isSome_iff t).mp (by simpa using List.find?_some hf)⟩
      have herr : validateEntry registry name d =
          Except.error ("Agent type \"" ++ name ++ "\" has forbidden tool: " ++ t) := by
        unfold validateEntry
        rw [hf]
      rw [herr]
      simp only [reduceCtorEq, false_iff, not_not]
      exact hv
  | none =>
      have hnof : ¬ ∃ t, ResolvedCapability registry d t ∧
          ∃ p ∈ FORBIDDEN_PREFIXES, jsStartsWith t p = true := by
        rintro ⟨t, hres, hforb⟩
        have hne := List.find?_eq_none.mp hf t ((mem_toolsToCheck_iff registry d t).mpr hres)
        exact hne (by simpa [forbiddenHit_isSome_iff t] using hforb)
      have hval : validateEntry registry name d = checkExtends registry name d := by
        unfold validateEntry
        rw [hf]
      rw [hval]
      cases he : extendsTarget d with
      | none =>
          have hok : checkExtends registry name d = Except.ok () := by
            unfold checkExtends
            rw [he]
          rw [hok]
          simp only [true_iff]
          unfold EntryViolation
          rintro (h | ⟨e, hee, _⟩ | ⟨e, parent, hee, _, _⟩)
          · exact hnof h
          · rw [he] at hee; cases hee
          · rw [he] at hee; cases hee
      | some e =>
          have hce : checkExtends registry name d = checkParent registry name e := by
            unfold checkExtends
            rw [he]
          rw [hce]
          cases hp : lookupType registry e with
          | none =>
              have herr : checkParent registry name e =
                  Except.error ("Agent type \"" ++ name ++ "\" extends \"" ++ e ++
                    "\" which does not exist in the registry.") := by
                unfold checkParent
                rw [hp]
              rw [herr]
              simp only [reduceCtorEq, false_iff, not_not]
              exact Or.inr (Or.inl ⟨e, he, hp⟩)
          | some parent =>
              have hcp : checkParent registry name e =
                  checkChain name e (truthyString parent.«extends») := by
                unfold checkParent
                rw [hp]
              rw [hcp]
              cases hpe : truthyString parent.«extends» with
              | none =>
                  simp only [checkChain, true_iff]
                  unfold EntryViolation
                  rintro (h | ⟨e1, hee, hl⟩ | ⟨e1, p1, hee, hl, hne⟩)
                  · exact hnof h
                  · rw [he] at hee
                    injection hee with h1
                    subst h1
                    rw [hp] at hl
                    cases hl
                  · rw [he] at hee
                    injection hee with h1
                    subst h1
                    rw [hp] at hl
                    injection hl with h2
                    subst h2
                    exact hne hpe
              | some pe =>
                  simp only [checkChain, reduceCtorEq, false_iff, not_not]
                  refine Or.inr (Or.inr ⟨e, parent, he, hp, ?_⟩)
                  rw [hpe]
                  simp

/-- The validation loop succeeds exactly when every entry does. -/
theorem validateAll_ok_iff (registry : AgentRegistry)
    (l : List (String × AgentTypeDefinition)) :
    validateAll registry l = Except.ok () ↔
      ∀ nd ∈ l, validateEntry registry nd.1 nd.2 = Except.ok () := by
  induction l with
  | nil => simp [validateAll]
  | cons x xs ih =>
      unfold validateAll
      cases hx : validateEntry registry x.1 x.2 with
      | error e =>
          simp only [reduceCtorEq, false_iff]
          intro h
          exact absurd hx (by simp [h x (List.mem_cons_self x xs), reduceCtorEq])
      | ok u =>
          cases u
          rw [ih]
          constructor
          · intro h y hy
            rcases List.mem_cons.mp hy with rfl | hy'
            · exact hx
            · exact h y hy'
          · intro h y hy
            exact h y (List.mem_cons_of_mem x hy)

/-- An `Except _ Unit` value is plain success or an error. -/
theorem except_unit_cases {ε : Type} (x : Except ε Unit) :
    x = Except.ok () ∨ ∃ e, x = Except.error e := by
  cases x with
  | ok u => cases u; exact Or.inl rfl
  | error e => exact Or.inr ⟨e, rfl⟩

/-- C6: registry validation is prefix-matching and fail-closed — it
reports an error exactly when some role's resolved capability list holds
a capability starting with (not merely equal to) a forbidden prefix, or
some role's `extends` target is missing, or some `extends` target itself
has a parent. -/
theorem validateRegistry_error_iff (registry : AgentRegistry) :
    (∃ err, validateRegistry registry = Except.error err) ↔
      ∃ nd ∈ registry, EntryViolation registry nd.2 := by
  constructor
  · rintro ⟨err, herr⟩
    by_contra hno
    push_neg at hno
    have hok : validateRegistry registry = Except.ok () := by
      rw [validateRegistry, validateAll_ok_iff]
      intro nd hnd
      exact (validateEntry_ok_iff registry nd.1 nd.2).mpr (hno nd hnd)
    rw [hok] at herr
    cases herr
  · rintro ⟨nd, hnd, hviol⟩
    rcases except_unit_cases (validateRegistry registry) with hok | herr
    · exfalso
      have hall := (validateAll_ok_iff registry registry).mp hok
      exact (validateEntry_ok_iff registry nd.1 nd.2).mp (hall nd hnd) hviol
    · exact herr

/-- C8: resolving a role with a parent yields the deduplicated union of
the parent's and the role's own capabilities, and the effective caps a
spawn receives are the minimum of the requested caps and the role's
configured caps, never exceeding the configured ceiling. -/
theorem resolveRole_union_caps_clamped (registry : AgentRegistry) (name e : String)
    (d parent : AgentTypeDefinition) (reqTurns : Nat) (reqBudget : ℚ)
    (hname : name ≠ "")
    (hd : lookupType registry name = some d)
    (he : extendsTarget d = some e)
    (hp : lookupType registry e = some parent) :
    ∃ r, resolveAgentType name registry = Except.ok r ∧
      r.tools = dedupSet (parent.tools ++ d.tools) ∧
      r.tools.Nodup ∧
      (∀ t, t ∈ r.tools ↔ t ∈ parent.tools ∨ t ∈ d.tools) ∧
      resolveSpawnTools registry (some name) none reqTurns reqBudget =
        Except.ok ⟨r.tools, min reqTurns d.maxTurns, min reqBudget d.maxBudgetUsd⟩ ∧
      min reqTurns d.maxTurns ≤ d.maxTurns ∧
      min reqBudget d.maxBudgetUsd ≤ d.maxBudgetUsd := by
  have h1 : resolveToolsOf registry d = mergedTools d (lookupType registry e) := by
    unfold resolveToolsOf
    rw [he]
  have htools : resolveToolsOf registry d =
      Except.ok (dedupSet (parent.tools ++ d.tools)) := by
    rw [h1, hp]
    rfl
  have h2 : resolveAgentType name registry =
      (resolveToolsOf registry d).map
        (fun tools => ⟨name, d.description, tools, d.maxBudgetUsd, d.maxTurns, d.audit⟩) := by
    unfold resolveAgentType
    rw [hd]
  have hres : resolveAgentType name registry =
      Except.ok ⟨name, d.description, dedupSet (parent.tools ++ d.tools),
        d.maxBudgetUsd, d.maxTurns, d.audit⟩ := by
    rw [h2, htools]
    rfl
  refine ⟨_, hres, rfl, nodup_dedupSet _, ?_, ?_, min_le_right _ _, min_le_right _ _⟩
  · intro t
    rw [mem_dedupSet]
    exact List.mem_append
  · have htr : truthyString (some name) = some name := by
      have hts : truthyString (some name) = if name = "" then none else some name := rfl
      rw [hts, if_neg hname]
    have h3 : resolveSpawnTools registry (some name) none reqTurns reqBudget =
        (resolveAgentType name registry).map
          (fun r => ⟨r.tools, min reqTurns r.maxTurns, min reqBudget r.maxBudgetUsd⟩) := by
      unfold resolveSpawnTools
      rw [htr]
    rw [h3, hres]
    rfl

/-- C8 witness: the inheritance fixture, with requested caps above the
role's configured turn cap and below its budget cap. -/
theorem resolveRole_union_caps_clamped_witness :
    ("child" ≠ "" ∧ lookupType inheritRegistry "child" = some childDef ∧
      extendsTarget childDef = some "base" ∧ lookupType inheritRegistry "base" = some baseDef) ∧
    (∃ r, resolveAgentType "child" inheritRegistry = Except.ok r ∧
      r.tools = dedupSet (baseDef.tools ++ childDef.tools) ∧
      r.tools.Nodup ∧
      (∀ t, t ∈ r.tools ↔ t ∈ baseDef.tools ∨ t ∈ childDef.tools) ∧
      resolveSpawnTools inheritRegistry (some "child") none 100 ((7 : ℚ) / 2) =
        Except.ok ⟨r.tools, min 100 childDef.maxTurns, min ((7 : ℚ) / 2) childDef.maxBudgetUsd⟩ ∧
      min 100 childDef.maxTurns ≤ childDef.maxTurns ∧
      min ((7 : ℚ) / 2) childDef.maxBudgetUsd ≤ childDef.maxBudgetUsd) :=
  ⟨⟨by decide, by decide, by decide, by decide⟩,
    resolveRole_union_caps_clamped inheritRegistry "child" "base" childDef baseDef 100
      ((7 : ℚ) / 2) (by decide) (by decide) (by decide) (by decide)⟩

/-- C1: the claim "two `createProposal` calls for the same (ticket, base
role) pair before resolution return the same proposal id, and at most one
pending proposal exists for the pair afterwards" is false for the shipped
code: `createProposal` never searches the existing pending proposals, so
two calls (as a batch re-run performs) write two distinct pending
proposals with distinct generated ids for the same (JOS-1, worker) pair. -/
theorem createProposal_duplicates_pending_pair :
    ∃ p1 s1 p2 s2,
      createProposal sampleRegistry sampleIssue "worker"
        ⟨.permission_denied, ["Write"], ["Write"], 90⟩ "uuid-a" "t1" [] =
          Except.ok (p1, s1) ∧
      createProposal sampleRegistry sampleIssue "worker"
        ⟨.permission_denied, ["Write"], ["Write"], 90⟩ "uuid-b" "t2" s1 =
          Except.ok (p2, s2) ∧
      p1.status = ProposalStatus.pending ∧
      p2.status = ProposalStatus.pending ∧
      p1.id ≠ p2.id ∧
      (pendingFor s2 "JOS-1" "worker").length = 2 := by
  refine ⟨_, _, _, _, rfl, rfl, rfl, rfl, by decide, by decide⟩

/-- C2: the claim "getProposal validates that an externally supplied id
matches the generated-identifier (UUID) format before building a storage
path; a non-matching id is rejected and never causes a read outside the
proposals directory" is false for the shipped code: the id `../registry`
fails the UUID format, yet `proposalPath` builds a path that escapes the
proposals directory and `getProposal` happily reads the file there. -/
theorem getProposal_path_traversal :
    isUuidFormat "../registry" = false ∧
    proposalPath "../registry" = ["repo", "src", "agents", "registry.json"] ∧
    isWithinProposalsDir (proposalPath "../registry") = false ∧
    getProposal strayFs "../registry" = Except.ok strayProposal := by
  refine ⟨by decide, by decide, by decide, rfl⟩

/-- C3: the claim "timeout detection uses word-boundary matching, so a
transcript containing `timeout` only inside a longer identifier and
matching no other failure pattern is not classified timed-out" is false
for the shipped code: the `PATTERNS` timeout regex keeps a bare `timeout`
alternative, so the transcript `agentTimeoutMs: 600000` — which contains
no standalone timeout wording and matches no other pattern — is
classified timed-out with confidence 0.8. -/
theorem analyzeFailure_timeout_substring :
    analyzeFailure "" "agentTimeoutMs: 600000" =
      ⟨FailureCategory.timeout, [], [], 80⟩ ∧
    containsLit "timed out".toList (combinedOutput "" "agentTimeoutMs: 600000") = false ∧
    containsLit "SIGTERM".toList (combinedOutput "" "agentTimeoutMs: 600000") = false ∧
    containsLit "ETIMEDOUT".toList (combinedOutput "" "agentTimeoutMs: 600000") = false ∧
    genericPermissionTest (combinedOutput "" "agentTimeoutMs: 600000") = false ∧
    execAll p6TryAt (combinedOutput "" "agentTimeoutMs: 600000") = [] := by
  refine ⟨by decide, by decide, by decide, by decide, by decide, by decide⟩

/-- C5: the claim "the pipeline's link-PR-to-ticket step retries the
comment write and falls back to appending the PR link to the ticket
description, so the PR reference is never silently lost" is what
run-issue.test.ts pins for `postPRLink`, but the shipped pipeline step 11
performs a single try/caught `addComment`: when that one call fails the
PR reference is recorded nowhere, while the tested `postPRLink` logic
retries twice and then persists the link into the description. -/
theorem linkPRStep_drops_link_postPRLink_keeps_it :
    (linkPRToLinear false "https://github.com/pr/1" ⟨[], some "desc", 0⟩).comments = [] ∧
    (linkPRToLinear false "https://github.com/pr/1" ⟨[], some "desc", 0⟩).description =
      some "desc" ∧
    (postPRLink (fun _ => false) true "https://github.com/pr/1"
        ⟨[], some "desc", 0⟩).description = some "desc\n\nPR: https://github.com/pr/1" ∧
    (postPRLink (fun _ => false) true "https://github.com/pr/1"
        ⟨[], some "desc", 0⟩).warnings = 2 ∧
    (postPRLink (fun a => a = 2) false "https://github.com/pr/1"
        ⟨[], some "desc", 0⟩).comments = ["🤖 PR created: https://github.com/pr/1"] := by
  refine ⟨rfl, rfl, rfl, rfl, rfl⟩

/-- C4 counterexample: the claim gives capability-denial classification
priority over the budget-exhausted and timed-out patterns "even when
those also match the same transcript", but on a transcript matching both
a structured capability denial and a budget pattern the loop returns
budget-exhausted (confidence 0.8) from inside the rule scan, before the
collected capability denials are ever considered. -/
theorem analyzeFailure_budget_preempts_denial :
    analyzeFailure "tool \"Write\" is not allowed" "max budget exceeded" =
      ⟨FailureCategory.budget_exhausted, [], [], 80⟩ ∧
    (execAll p1TryAt (combinedOutput "tool \"Write\" is not allowed" "max budget exceeded")
      ≠ []) ∧
    (analyzeFailure "tool \"Write\" is not allowed" "max budget exceeded").category ≠
      FailureCategory.permission_denied := by
  refine ⟨by decide, by decide, by decide⟩

/-- Members reached by the guarded insert fold. -/
theorem mem_foldl_insertCap (xs : List String) (acc : List String) (c : String) :
    c ∈ xs.foldl insertCap acc ↔ c ∈ acc ∨ (c ∈ xs ∧ c ≠ "") := by
  induction xs generalizing acc with
  | nil => simp
  | cons x xs ih =>
      simp only [List.foldl_cons, ih, List.mem_cons]
      by_cases hx0 : x = ""
      · subst hx0
        simp only [insertCap, if_pos rfl]
        constructor
        · rintro (h | h)
          · exact Or.inl h
          · exact Or.inr ⟨Or.inr h.1, h.2⟩
        · rintro (h | ⟨h1 | h1, h2⟩)
          · exact Or.inl h
          · exact absurd h1 h2
          · exact Or.inr ⟨h1, h2⟩
      · by_cases hx : x ∈ acc
        · simp only [insertCap, if_neg hx0, if_pos hx]
          constructor
          · rintro (h | h)
            · exact Or.inl h
            · exact Or.inr ⟨Or.inr h.1, h.2⟩
          · rintro (h | ⟨h1 | h1, h2⟩)
            · exact Or.inl h
            · exact Or.inl (h1 ▸ hx)
            · exact Or.inr ⟨h1, h2⟩
        · simp only [insertCap, if_neg hx0, if_neg hx, List.mem_append, List.mem_singleton]
          constructor
          · rintro (⟨h | h⟩ | h)
            · exact Or.inl h
            · exact Or.inr ⟨Or.inl h, h ▸ hx0⟩
            · exact Or.inr ⟨Or.inr h.1, h.2⟩
          · rintro (h | ⟨h1 | h1, h2⟩)
            · exact Or.inl (Or.inl h)
            · exact Or.inl (Or.inr h1)
            · exact Or.inr ⟨h1, h2⟩

/-- The guarded insert fold preserves distinctness. -/
theorem nodup_foldl_insertCap (xs : List String) (acc : List String) (h : acc.Nodup) :
    (xs.foldl insertCap acc).Nodup := by
  induction xs generalizing acc with
  | nil => exact h
  | cons x xs ih =>
      simp only [List.foldl_cons]
      refine ih _ ?_
      unfold insertCap
      by_cases hx0 : x = ""
      · rw [if_pos hx0]; exact h
      · rw [if_neg hx0]
        by_cases hx : x ∈ acc
        · rw [if_pos hx]; exact h
        · rw [if_neg hx]
          simp only [List.nodup_append, List.nodup_singleton]
          exact ⟨h, trivial, by simpa using hx⟩

/-- A permission rule collects its matches and continues. -/
theorem analyzeLoop_perm_cons (s : List Char)
    (tryAt : List Char → Option (Option (List Char) × List Char))
    (rest : List PatternRule) (caps : List String) :
    analyzeLoop s (⟨tryAt, .permission_denied⟩ :: rest) caps =
      analyzeLoop s rest (collectCaps caps (execAll tryAt s)) := rfl

/-- A non-permission rule that matches nothing is skipped. -/
theorem analyzeLoop_nonperm_skip (s : List Char)
    (tryAt : List Char → Option (Option (List Char) × List Char))
    (cat : FailureCategory) (rest : List PatternRule) (caps : List String)
    (hcat : ¬ cat = FailureCategory.permission_denied)
    (hm : execAll tryAt s = []) :
    analyzeLoop s (⟨tryAt, cat⟩ :: rest) caps = analyzeLoop s rest caps := by
  show (if cat = FailureCategory.permission_denied then
      analyzeLoop s rest (collectCaps caps (execAll tryAt s))
    else if !(execAll tryAt s).isEmpty then ⟨cat, [], [], 80⟩
    else analyzeLoop s rest caps) = analyzeLoop s rest caps
  rw [if_neg hcat, hm]
  simp

/-- Exhausted rules with a nonempty collection report permission-denied. -/
theorem analyzeLoop_nil_of_ne (s : List Char) (caps : List String) (h : caps ≠ []) :
    analyzeLoop s [] caps = ⟨.permission_denied, caps, caps.map normalizeTool, 90⟩ := by
  unfold analyzeLoop
  rw [if_pos h]

/-- The five permission rules together collect the fold of the
structured denials. -/
theorem caps_after_perm_rules (s : List Char) :
    collectCaps (collectCaps (collectCaps (collectCaps (collectCaps []
        (execAll p1TryAt s)) (execAll p2TryAt s)) (execAll p3TryAt s))
        (execAll p4TryAt s)) (execAll p5TryAt s) =
      (structuredDenials s).foldl insertCap [] := by
  unfold collectCaps structuredDenials
  rw [List.filterMap_append, List.filterMap_append, List.filterMap_append,
    List.filterMap_append, List.foldl_append, List.foldl_append, List.foldl_append,
    List.foldl_append]

/-- C4 (amended): when no budget-exhausted or timed-out pattern matches
the transcript and the structured capability-denial patterns extract at
least one capability, `analyzeFailure` returns capability-denied with
confidence 0.9 and the exhaustively collected list of every distinct
denied capability; when a budget or timeout pattern also matches, the
analyzer instead returns that category from inside the scan
(`analyzeFailure_budget_preempts_denial`). -/
theorem analyzeFailure_denial_exhaustive (stdout stderr : String)
    (hb : execAll p6TryAt (combinedOutput stdout stderr) = [])
    (ht : execAll p7TryAt (combinedOutput stdout stderr) = [])
    (hne : ∃ c, c ∈ structuredDenials (combinedOutput stdout stderr) ∧ c ≠ "") :
    (analyzeFailure stdout stderr).category = FailureCategory.permission_denied ∧
    (analyzeFailure stdout stderr).confidencePercent = 90 ∧
    (analyzeFailure stdout stderr).missingCapabilities.Nodup ∧
    (∀ c, c ∈ (analyzeFailure stdout stderr).missingCapabilities ↔
      c ∈ structuredDenials (combinedOutput stdout stderr) ∧ c ≠ "") ∧
    (analyzeFailure stdout stderr).suggestedTools =
      (analyzeFailure stdout stderr).missingCapabilities.map normalizeTool := by
  have hcaps :
      analyzeFailure stdout stderr =
        analyzeLoop (combinedOutput stdout stderr) []
          ((structuredDenials (combinedOutput stdout stderr)).foldl insertCap []) := by
    unfold analyzeFailure PATTERNS
    rw [analyzeLoop_perm_cons, analyzeLoop_perm_cons, analyzeLoop_perm_cons,
      analyzeLoop_perm_cons, analyzeLoop_perm_cons,
      analyzeLoop_nonperm_skip _ _ _ _ _ (by intro h; cases h) hb,
      analyzeLoop_nonperm_skip _ _ _ _ _ (by intro h; cases h) ht,
      caps_after_perm_rules]
  have hfold_ne : (structuredDenials (combinedOutput stdout stderr)).foldl insertCap [] ≠ [] := by
    rcases hne with ⟨c, hc, hc0⟩
    intro hnil
    have : c ∈ (structuredDenials (combinedOutput stdout stderr)).foldl insertCap [] :=
      (mem_foldl_insertCap _ _ c).mpr (Or.inr ⟨hc, hc0⟩)
    rw [hnil] at this
    cases this
  rw [hcaps, analyzeLoop_nil_of_ne _ _ hfold_ne]
  refine ⟨rfl, rfl, nodup_foldl_insertCap _ _ List.nodup_nil, ?_, rfl⟩
  intro c
  rw [mem_foldl_insertCap]
  simp

/-- C4 witness: a transcript with two structured denials and no budget or
timeout match. -/
theorem analyzeFailure_denial_exhaustive_witness :
    (execAll p6TryAt
        (combinedOutput "tool \"Write\" is not allowed; Bash(npm run lint) is not allowed" "")
        = [] ∧
      execAll p7TryAt
        (combinedOutput "tool \"Write\" is not allowed; Bash(npm run lint) is not allowed" "")
        = [] ∧
      ∃ c, c ∈ structuredDenials
          (combinedOutput "tool \"Write\" is not allowed; Bash(npm run lint) is not allowed" "")
        ∧ c ≠ "") ∧
    ((analyzeFailure "tool \"Write\" is not allowed; Bash(npm run lint) is not allowed" "").category
        = FailureCategory.permission_denied ∧
      (analyzeFailure "tool \"Write\" is not allowed; Bash(npm run lint) is not allowed"
          "").confidencePercent = 90 ∧
      (analyzeFailure "tool \"Write\" is not allowed; Bash(npm run lint) is not allowed"
          "").missingCapabilities.Nodup ∧
      (∀ c, c ∈ (analyzeFailure "tool \"Write\" is not allowed; Bash(npm run lint) is not allowed"
          "").missingCapabilities ↔
        c ∈ structuredDenials
          (combinedOutput "tool \"Write\" is not allowed; Bash(npm run lint) is not allowed" "")
          ∧ c ≠ "") ∧
      (analyzeFailure "tool \"Write\" is not allowed; Bash(npm run lint) is not allowed"
          "").suggestedTools =
        (analyzeFailure "tool \"Write\" is not allowed; Bash(npm run lint) is not allowed"
          "").missingCapabilities.map normalizeTool) :=
  ⟨⟨by decide, by decide, ⟨"Write", by decide, by decide⟩⟩,
    analyzeFailure_denial_exhaustive
      "tool \"Write\" is not allowed; Bash(npm run lint) is not allowed" ""
      (by decide) (by decide) ⟨"Write", by decide, by decide⟩⟩

/-- The retry loop stops at the first permission-denied classification:
with attempts `a..k-1` failing non-permission and attempt `k` failing
permission-denied, the loop executes exactly attempts `a..k`, creates the
proposal (errors caught), and returns the permission failure. -/
theorem runAttemptsGo_permission_stop (registry : AgentRegistry) (issue : LinearIssueM)
    (agentType : String) (agent : Nat → AgentResultM) (validate : Nat → Bool)
    (freshId createdAt : String) (maxAttempts k : Nat)
    (hfail : (agent k).success = false)
    (hperm : (analyzeFailure (agent k).output (agent k).stderr).category =
      FailureCategory.permission_denied) :
    ∀ fuel a executed store, a ≤ k → k < a + fuel →
      (∀ j, a ≤ j → j < k → (agent j).success = false ∧
        (analyzeFailure (agent j).output (agent j).stderr).category ≠
          FailureCategory.permission_denied) →
      runAttemptsGo registry issue agentType agent validate freshId createdAt maxAttempts
          fuel a executed store =
        ⟨LoopOutcome.permissionFailure k, executed ++ List.range' a (k - a + 1),
          match createProposal registry issue agentType
              (analyzeFailure (agent k).output (agent k).stderr) freshId createdAt store with
          | Except.ok (_, s) => s
          | Except.error _ => store⟩ := by
  intro fuel
  induction fuel with
  | zero =>
      intro a executed store ha hk _
      omega
  | succ fuel ih =>
      intro a executed store ha hk hprev
      by_cases hak : a = k
      · subst hak
        simp [runAttemptsGo, hfail, hperm, List.range'_one]
      · have hak' : a < k := lt_of_le_of_ne ha hak
        obtain ⟨hfa, hpa⟩ := hprev a le_rfl hak'
        have hrec := ih (a + 1) (executed ++ [a]) store (by omega) (by omega)
          (fun j hj1 hj2 => hprev j (by omega) hj2)
        have harr : k - (a + 1) + 1 = k - a := by omega
        have hsplit : List.range' a (k - a + 1) = a :: List.range' (a + 1) (k - a) :=
          List.range'_succ a (k - a) 1
        simp only [runAttemptsGo, hfa, Bool.false_eq_true, if_false, hpa, ite_false,
          if_neg hpa]
        rw [hrec, harr, hsplit]
        simp [List.append_assoc]

/-- C7: once an execution failure is classified capability-denied at
attempt `k`, the pipeline stops immediately: the agent oracle is called
for exactly the attempts `1..k` even though attempts remain, an
escalation proposal for the dispatched role is created (exactly one
pending proposal for the (ticket, role) pair), and the loop returns the
permission failure. -/
theorem capability_denied_stops_pipeline (registry : AgentRegistry) (issue : LinearIssueM)
    (agentType : String) (agent : Nat → AgentResultM) (validate : Nat → Bool)
    (freshId createdAt : String) (maxAttempts k : Nat)
    (hk1 : 1 ≤ k) (hk2 : k ≤ maxAttempts)
    (hprev : ∀ j, 1 ≤ j → j < k → (agent j).success = false ∧
      (analyzeFailure (agent j).output (agent j).stderr).category ≠
        FailureCategory.permission_denied)
    (hfail : (agent k).success = false)
    (hperm : (analyzeFailure (agent k).output (agent k).stderr).category =
      FailureCategory.permission_denied)
    (hresolve : ∃ r, resolveAgentType agentType registry = Except.ok r) :
    (runAttempts registry issue agentType agent validate freshId createdAt maxAttempts
      []).outcome = LoopOutcome.permissionFailure k ∧
    (runAttempts registry issue agentType agent validate freshId createdAt maxAttempts
      []).executed = List.range' 1 k ∧
    ∃ p, pendingFor (runAttempts registry issue agentType agent validate freshId createdAt
        maxAttempts []).store issue.identifier agentType = [p] ∧
      p.baseAgentType = agentType ∧ p.status = ProposalStatus.pending ∧
      p.issueIdentifier = issue.identifier := by
  obtain ⟨r, hr⟩ := hresolve
  have hgo := runAttemptsGo_permission_stop registry issue agentType agent validate
    freshId createdAt maxAttempts k hfail hperm maxAttempts 1 [] [] hk1 (by omega) hprev
  have hk' : k - 1 + 1 = k := by omega
  rw [hk'] at hgo
  have hcp : createProposal registry issue agentType
      (analyzeFailure (agent k).output (agent k).stderr) freshId createdAt [] =
      Except.ok (buildProposal issue agentType r
          (analyzeFailure (agent k).output (agent k).stderr) freshId createdAt,
        [buildProposal issue agentType r
          (analyzeFailure (agent k).output (agent k).stderr) freshId createdAt]) := by
    unfold createProposal
    rw [hr]
    rfl
  have hrun : runAttempts registry issue agentType agent validate freshId createdAt
      maxAttempts [] =
      ⟨LoopOutcome.permissionFailure k, List.range' 1 k,
        [buildProposal issue agentType r
          (analyzeFailure (agent k).output (agent k).stderr) freshId createdAt]⟩ := by
    unfold runAttempts
    rw [hgo, hcp]
    rfl
  rw [hrun]
  refine ⟨rfl, rfl, buildProposal issue agentType r
    (analyzeFailure (agent k).output (agent k).stderr) freshId createdAt,
    ?_, rfl, rfl, rfl⟩
  unfold pendingFor
  simp [buildProposal]

/-- C7 witness: attempt 1 of 3 fails with a capability-denial signature;
the loop stops after one attempt with one pending proposal. -/
theorem capability_denied_stops_pipeline_witness :
    ((1 : Nat) ≤ 1 ∧ (1 : Nat) ≤ 3 ∧
      ((fun j => if j = 1 then AgentResultM.mk false "tool \"Write\" is not allowed" "" (some 1)
          else AgentResultM.mk true "" "" (some 0)) 1).success = false ∧
      (analyzeFailure
        ((fun j => if j = 1 then AgentResultM.mk false "tool \"Write\" is not allowed" "" (some 1)
          else AgentResultM.mk true "" "" (some 0)) 1).output
        ((fun j => if j = 1 then AgentResultM.mk false "tool \"Write\" is not allowed" "" (some 1)
          else AgentResultM.mk true "" "" (some 0)) 1).stderr).category =
        FailureCategory.permission_denied) ∧
    ((runAttempts sampleRegistry sampleIssue "worker"
        (fun j => if j = 1 then AgentResultM.mk false "tool \"Write\" is not allowed" "" (some 1)
          else AgentResultM.mk true "" "" (some 0))
        (fun _ => true) "uuid-w" "t0" 3 []).outcome = LoopOutcome.permissionFailure 1 ∧
      (runAttempts sampleRegistry sampleIssue "worker"
        (fun j => if j = 1 then AgentResultM.mk false "tool \"Write\" is not allowed" "" (some 1)
          else AgentResultM.mk true "" "" (some 0))
        (fun _ => true) "uuid-w" "t0" 3 []).executed = List.range' 1 1 ∧
      ∃ p, pendingFor (runAttempts sampleRegistry sampleIssue "worker"
          (fun j => if j = 1 then AgentResultM.mk false "tool \"Write\" is not allowed" "" (some 1)
            else AgentResultM.mk true "" "" (some 0))
          (fun _ => true) "uuid-w" "t0" 3 []).store sampleIssue.identifier "worker" = [p] ∧
        p.baseAgentType = "worker" ∧ p.status = ProposalStatus.pending ∧
        p.issueIdentifier = sampleIssue.identifier) :=
  ⟨⟨le_rfl, by omega, by decide, by decide⟩,
    capability_denied_stops_pipeline sampleRegistry sampleIssue "worker"
      (fun j => if j = 1 then AgentResultM.mk false "tool \"Write\" is not allowed" "" (some 1)
        else AgentResultM.mk true "" "" (some 0))
      (fun _ => true) "uuid-w" "t0" 3 1 le_rfl (by omega)
      (by intro j h1 h2; omega) (by decide) (by decide) ⟨_, rfl⟩⟩

/- ### Worker-pool lemmas -/

/-- An indexed hit is a member. -/
theorem getElem?_some_mem {α : Type} {l : List α} {i : Nat} {a : α}
    (h : l[i]? = some a) : a ∈ l := by
  rcases List.getElem?_eq_some.mp h with ⟨hlt, hg⟩
  exact hg ▸ List.getElem_mem hlt

/-- An indexed hit bounds the index. -/
theorem getElem?_some_lt {α : Type} {l : List α} {i : Nat} {a : α}
    (h : l[i]? = some a) : i < l.length :=
  (List.getElem?_eq_some.mp h).1

/-- A missing worker makes the step a no-op. -/
theorem poolStep_none {R E : Type} (f : Nat → Except E R) (n : Nat) (s : PoolState R)
    (w : Nat) (hw : s.workers[w]? = none) : poolStep f n s w = s := by
  unfold poolStep
  rw [hw]

/-- A present worker steps through the dispatcher. -/
theorem poolStep_some {R E : Type} (f : Nat → Except E R) (n : Nat) (s : PoolState R)
    (w : Nat) (wk : Worker) (hw : s.workers[w]? = some wk) :
    poolStep f n s w = stepDispatch f n s w wk := by
  unfold poolStep
  rw [hw]

/-- A settled worker's step is the identity. -/
theorem stepDispatch_settled {R E : Type} (f : Nat → Except E R) (n : Nat)
    (s : PoolState R) (w : Nat) (wk : Worker)
    (hst : wk.status = WStatus.done ∨ wk.status = WStatus.dead) :
    stepDispatch f n s w wk = s := by
  rcases hst with h | h
  · unfold stepDispatch
    rw [h]
  · unfold stepDispatch
    rw [h]

/-- A ready worker dispatches to `stepReady`. -/
theorem stepDispatch_ready {R E : Type} (f : Nat → Except E R) (n : Nat)
    (s : PoolState R) (w : Nat) (wk : Worker) (hst : wk.status = WStatus.ready) :
    stepDispatch f n s w wk = stepReady n s w wk := by
  unfold stepDispatch
  rw [hst]

/-- A working worker dispatches to `stepWorking`. -/
theorem stepDispatch_working {R E : Type} (f : Nat → Except E R) (n : Nat)
    (s : PoolState R) (w : Nat) (wk : Worker) (i : Nat)
    (hst : wk.status = WStatus.working i) :
    stepDispatch f n s w wk = stepWorking f s w wk i := by
  unfold stepDispatch
  rw [hst]

/-- The initial pool state satisfies the invariant. -/
theorem poolInv_init {R E : Type} (f : Nat → Except E R) (n W : Nat) :
    PoolInv f n W (initPool R n W) := by
  refine ⟨List.length_replicate n none, List.length_replicate W _, ?_, ?_, ?_, ?_, ?_, ?_⟩
  · intro i r h
    have h2 : (List.replicate n (none : Option R))[i]? = some (some r) := h
    rw [List.getElem?_replicate] at h2
    by_cases hi : i < n
    · rw [if_pos hi] at h2
      injection h2 with h1
      cases h1
    · rw [if_neg hi] at h2
      cases h2
  · intro i hi
    exact absurd hi (by simp [initPool])
  · intro wk hmem hst
    have h2 : wk ∈ List.replicate W (⟨WStatus.ready, []⟩ : Worker) := hmem
    rw [List.mem_replicate] at h2
    rw [h2.2] at hst
    cases hst
  · intro wk hmem i hst
    have h2 : wk ∈ List.replicate W (⟨WStatus.ready, []⟩ : Worker) := hmem
    rw [List.mem_replicate] at h2
    rw [h2.2] at hst
    cases hst
  · intro wk hmem hst
    have h2 : wk ∈ List.replicate W (⟨WStatus.ready, []⟩ : Worker) := hmem
    rw [List.mem_replicate] at h2
    rw [h2.2] at hst
    cases hst
  · intro wk hmem i hi
    have h2 : wk ∈ List.replicate W (⟨WStatus.ready, []⟩ : Worker) := hmem
    rw [List.mem_replicate] at h2
    rw [h2.2] at hi
    cases hi

/-- One scheduler step preserves the invariant. -/
theorem poolInv_step {R E : Type} (f : Nat → Except E R) (n W : Nat) (s : PoolState R)
    (w : Nat) (hinv : PoolInv f n W s) : PoolInv f n W (poolStep f n s w) := by
  cases hw : s.workers[w]? with
  | none => rw [poolStep_none f n s w hw]; exact hinv
  | some wk =>
      have hwlt : w < s.workers.length := getElem?_some_lt hw
      have hwmem : wk ∈ s.workers := getElem?_some_mem hw
      rw [poolStep_some f n s w wk hw]
      cases hst : wk.status with
      | done => rw [stepDispatch_settled f n s w wk (Or.inl hst)]; exact hinv
      | dead => rw [stepDispatch_settled f n s w wk (Or.inr hst)]; exact hinv
      | ready =>
          rw [stepDispatch_ready f n s w wk hst]
          by_cases hlt : s.index < n
          · have hstep : stepReady n s w wk =
                { s with index := s.index + 1,
                         workers := s.workers.set w
                           ⟨WStatus.working s.index, wk.claims ++ [s.index]⟩ } := by
              unfold stepReady
              rw [if_pos hlt]
            rw [hstep]
            refine ⟨hinv.results_len, ?_, hinv.sound, ?_, ?_, ?_, ?_, ?_⟩
            · simpa [List.length_set] using hinv.workers_len
            · intro i hi r hfi
              by_cases hii : i = s.index
              · subst hii
                exact Or.inr ⟨w, ⟨WStatus.working s.index, wk.claims ++ [s.index]⟩,
                  List.getElem?_set_eq hwlt, rfl⟩
              · have hilt : i < s.index := by
                  simp only at hi
                  omega
                rcases hinv.claimed_complete i hilt r hfi with h | ⟨w1, wk1, hw1, hst1⟩
                · exact Or.inl h
                · have hne : w1 ≠ w := by
                    intro he
                    subst he
                    rw [hw] at hw1
                    injection hw1 with h2
                    subst h2
                    rw [hst] at hst1
                    cases hst1
                  refine Or.inr ⟨w1, wk1, ?_, hst1⟩
                  simpa [List.getElem?_set_ne (Ne.symm hne)] using hw1
            · intro wk1 hmem hdone
              rcases List.mem_or_eq_of_mem_set hmem with hin | rfl
              · have := hinv.done_n_le wk1 hin hdone
                simp only
                omega
              · cases hdone
            · intro wk1 hmem i hwork
              rcases List.mem_or_eq_of_mem_set hmem with hin | rfl
              · obtain ⟨h1, h2, h3⟩ := hinv.working_facts wk1 hin i hwork
                refine ⟨h1, h2, ?_⟩
                simp only
                omega
              · injection hwork with h1
                subst h1
                exact ⟨List.getLast?_concat _, hlt, Nat.lt_succ_self _⟩
            · intro wk1 hmem hdead
              rcases List.mem_or_eq_of_mem_set hmem with hin | rfl
              · exact hinv.dead_err wk1 hin hdead
              · cases hdead
            · intro wk1 hmem i hi
              rcases List.mem_or_eq_of_mem_set hmem with hin | rfl
              · obtain ⟨h1, h2⟩ := hinv.claims_bound wk1 hin i hi
                refine ⟨?_, h2⟩
                simp only
                omega
              · rcases List.mem_append.mp hi with h | h
                · obtain ⟨h1, h2⟩ := hinv.claims_bound wk hwmem i h
                  refine ⟨?_, h2⟩
                  simp only
                  omega
                · rw [List.mem_singleton] at h
                  subst h
                  exact ⟨Nat.lt_succ_self _, hlt⟩
          · have hstep : stepReady n s w wk =
                { s with workers := s.workers.set w ⟨WStatus.done, wk.claims⟩ } := by
              unfold stepReady
              rw [if_neg hlt]
            rw [hstep]
            refine ⟨hinv.results_len, ?_, hinv.sound, ?_, ?_, ?_, ?_, ?_⟩
            · simpa [List.length_set] using hinv.workers_len
            · intro i hi r hfi
              rcases hinv.claimed_complete i hi r hfi with h | ⟨w1, wk1, hw1, hst1⟩
              · exact Or.inl h
              · have hne : w1 ≠ w := by
                  intro he
                  subst he
                  rw [hw] at hw1
                  injection hw1 with h2
                  subst h2
                  rw [hst] at hst1
                  cases hst1
                refine Or.inr ⟨w1, wk1, ?_, hst1⟩
                simpa [List.getElem?_set_ne (Ne.symm hne)] using hw1
            · intro wk1 hmem hdone
              rcases List.mem_or_eq_of_mem_set hmem with hin | rfl
              · exact hinv.done_n_le wk1 hin hdone
              · exact Nat.le_of_not_lt hlt
            · intro wk1 hmem i hwork
              rcases List.mem_or_eq_of_mem_set hmem with hin | rfl
              · exact hinv.working_facts wk1 hin i hwork
              · cases hwork
            · intro wk1 hmem hdead
              rcases List.mem_or_eq_of_mem_set hmem with hin | rfl
              · exact hinv.dead_err wk1 hin hdead
              · cases hdead
            · intro wk1 hmem i hi
              rcases List.mem_or_eq_of_mem_set hmem with hin | rfl
              · exact hinv.claims_bound wk1 hin i hi
              · exact hinv.claims_bound wk hwmem i hi
      | working i0 =>
          rw [stepDispatch_working f n s w wk i0 hst]
          obtain ⟨hlast, hi0n, hi0idx⟩ := hinv.working_facts wk hwmem i0 hst
          have hi0len : i0 < s.results.length := by
            rw [hinv.results_len]
            exact hi0n
          cases hfi : f i0 with
          | ok r0 =>
              have hstep : stepWorking f s w wk i0 =
                  { s with results := s.results.set i0 (some r0),
                           workers := s.workers.set w ⟨WStatus.ready, wk.claims⟩ } := by
                unfold stepWorking
                rw [hfi]
              rw [hstep]
              refine ⟨?_, ?_, ?_, ?_, ?_, ?_, ?_, ?_⟩
              · simpa [List.length_set] using hinv.results_len
              · simpa [List.length_set] using hinv.workers_len
              · intro j r hj
                by_cases hji : i0 = j
                · subst hji
                  rw [List.getElem?_set_eq hi0len] at hj
                  injection hj with h1
                  injection h1 with h2
                  rw [← h2]
                  exact hfi
                · rw [List.getElem?_set_ne hji] at hj
                  exact hinv.sound j r hj
              · intro j hj r hfj
                by_cases hji : j = i0
                · subst hji
                  rw [hfi] at hfj
                  injection hfj with h1
                  subst h1
                  exact Or.inl (by rw [List.getElem?_set_eq hi0len])
                · rcases hinv.claimed_complete j hj r hfj with h | ⟨w1, wk1, hw1, hst1⟩
                  · exact Or.inl (by rw [List.getElem?_set_ne (Ne.symm hji)]; exact h)
                  · have hne : w1 ≠ w := by
                      intro he
                      subst he
                      rw [hw] at hw1
                      injection hw1 with h2
                      subst h2
                      rw [hst] at hst1
                      injection hst1 with h3
                      exact hji h3.symm
                    refine Or.inr ⟨w1, wk1, ?_, hst1⟩
                    simpa [List.getElem?_set_ne (Ne.symm hne)] using hw1
              · intro wk1 hmem hdone
                rcases List.mem_or_eq_of_mem_set hmem with hin | rfl
                · exact hinv.done_n_le wk1 hin hdone
                · cases hdone
              · intro wk1 hmem j hwork
                rcases List.mem_or_eq_of_mem_set hmem with hin | rfl
                · exact hinv.working_facts wk1 hin j hwork
                · cases hwork
              · intro wk1 hmem hdead
                rcases List.mem_or_eq_of_mem_set hmem with hin | rfl
                · exact hinv.dead_err wk1 hin hdead
                · cases hdead
              · intro wk1 hmem j hj
                rcases List.mem_or_eq_of_mem_set hmem with hin | rfl
                · exact hinv.claims_bound wk1 hin j hj
                · exact hinv.claims_bound wk hwmem j hj
          | error e0 =>
              have hstep : stepWorking f s w wk i0 =
                  { s with workers := s.workers.set w ⟨WStatus.dead, wk.claims⟩ } := by
                unfold stepWorking
                rw [hfi]
              rw [hstep]
              refine ⟨hinv.results_len, ?_, hinv.sound, ?_, ?_, ?_, ?_, ?_⟩
              · simpa [List.length_set] using hinv.workers_len
              · intro j hj r hfj
                rcases hinv.claimed_complete j hj r hfj with h | ⟨w1, wk1, hw1, hst1⟩
                · exact Or.inl h
                · have hne : w1 ≠ w := by
                    intro he
                    subst he
                    rw [hw] at hw1
                    injection hw1 with h2
                    subst h2
                    rw [hst] at hst1
                    injection hst1 with h3
                    rw [← h3] at hfj
                    rw [hfi] at hfj
                    cases hfj
                  refine Or.inr ⟨w1, wk1, ?_, hst1⟩
                  simpa [List.getElem?_set_ne (Ne.symm hne)] using hw1
              · intro wk1 hmem hdone
                rcases List.mem_or_eq_of_mem_set hmem with hin | rfl
                · exact hinv.done_n_le wk1 hin hdone
                · cases hdone
              · intro wk1 hmem j hwork
                rcases List.mem_or_eq_of_mem_set hmem with hin | rfl
                · exact hinv.working_facts wk1 hin j hwork
                · cases hwork
              · intro wk1 hmem hdead
                rcases List.mem_or_eq_of_mem_set hmem with hin | rfl
                · exact hinv.dead_err wk1 hin hdead
                · exact ⟨i0, e0, hlast, hi0n, hfi⟩
              · intro wk1 hmem j hj
                rcases List.mem_or_eq_of_mem_set hmem with hin | rfl
                · exact hinv.claims_bound wk1 hin j hj
                · exact hinv.claims_bound wk hwmem j hj

/-- Running any schedule preserves the invariant. -/
theorem poolInv_run {R E : Type} (f : Nat → Except E R) (n W : Nat) (s : PoolState R)
    (σ : List Nat) (hinv : PoolInv f n W s) : PoolInv f n W (runPool f n s σ) := by
  induction σ generalizing s with
  | nil => exact hinv
  | cons w σ ih => exact ih (poolStep f n s w) (poolInv_step f n W s w hinv)

/-- Runs compose over appended schedules. -/
theorem runPool_append {R E : Type} (f : Nat → Except E R) (n : Nat) (s : PoolState R)
    (σ1 σ2 : List Nat) :
    runPool f n s (σ1 ++ σ2) = runPool f n (runPool f n s σ1) σ2 :=
  List.foldl_append _ _ σ1 σ2

/-- A run under a cons schedule steps first. -/
theorem runPool_cons {R E : Type} (f : Nat → Except E R) (n : Nat) (s : PoolState R)
    (w : Nat) (σ : List Nat) :
    runPool f n s (w :: σ) = runPool f n (poolStep f n s w) σ := rfl

/-- A step scheduled on another worker leaves this worker untouched. -/
theorem poolStep_workers_other {R E : Type} (f : Nat → Except E R) (n : Nat)
    (s : PoolState R) (w w1 : Nat) (hne : w ≠ w1) :
    (poolStep f n s w1).workers[w]? = s.workers[w]? := by
  cases hw1 : s.workers[w1]? with
  | none => rw [poolStep_none f n s w1 hw1]
  | some wk1 =>
      rw [poolStep_some f n s w1 wk1 hw1]
      cases hst : wk1.status with
      | done => rw [stepDispatch_settled f n s w1 wk1 (Or.inl hst)]
      | dead => rw [stepDispatch_settled f n s w1 wk1 (Or.inr hst)]
      | ready =>
          rw [stepDispatch_ready f n s w1 wk1 hst]
          by_cases hlt : s.index < n
          · have hstep : stepReady n s w1 wk1 =
                { s with index := s.index + 1,
                         workers := s.workers.set w1
                           ⟨WStatus.working s.index, wk1.claims ++ [s.index]⟩ } := by
              unfold stepReady
              rw [if_pos hlt]
            rw [hstep]
            exact List.getElem?_set_ne (Ne.symm hne)
          · have hstep : stepReady n s w1 wk1 =
                { s with workers := s.workers.set w1 ⟨WStatus.done, wk1.claims⟩ } := by
              unfold stepReady
              rw [if_neg hlt]
            rw [hstep]
            exact List.getElem?_set_ne (Ne.symm hne)
      | working i0 =>
          rw [stepDispatch_working f n s w1 wk1 i0 hst]
          cases hfi : f i0 with
          | ok r0 =>
              have hstep : stepWorking f s w1 wk1 i0 =
                  { s with results := s.results.set i0 (some r0),
                           workers := s.workers.set w1 ⟨WStatus.ready, wk1.claims⟩ } := by
                unfold stepWorking
                rw [hfi]
              rw [hstep]
              exact List.getElem?_set_ne (Ne.symm hne)
          | error e0 =>
              have hstep : stepWorking f s w1 wk1 i0 =
                  { s with workers := s.workers.set w1 ⟨WStatus.dead, wk1.claims⟩ } := by
                unfold stepWorking
                rw [hfi]
              rw [hstep]
              exact List.getElem?_set_ne (Ne.symm hne)

/-- A settled (returned or stopped) worker is frozen by any step: its
status and claim list never change again. -/
theorem poolStep_frozen {R E : Type} (f : Nat → Except E R) (n : Nat) (s : PoolState R)
    (w : Nat) (wk : Worker) (hw : s.workers[w]? = some wk)
    (hst : wk.status = WStatus.done ∨ wk.status = WStatus.dead) (w1 : Nat) :
    (poolStep f n s w1).workers[w]? = some wk := by
  by_cases hww : w = w1
  · subst hww
    rw [poolStep_some f n s w wk hw, stepDispatch_settled f n s w wk hst]
    exact hw
  · rw [poolStep_workers_other f n s w w1 hww]
    exact hw

/-- A settled worker is frozen through any whole schedule. -/
theorem runPool_frozen {R E : Type} (f : Nat → Except E R) (n : Nat) (s : PoolState R)
    (w : Nat) (wk : Worker) (hw : s.workers[w]? = some wk)
    (hst : wk.status = WStatus.done ∨ wk.status = WStatus.dead) (σ : List Nat) :
    (runPool f n s σ).workers[w]? = some wk := by
  induction σ generalizing s with
  | nil => exact hw
  | cons w1 σ ih =>
      rw [runPool_cons]
      exact ih (poolStep f n s w1) (poolStep_frozen f n s w wk hw hst w1)

/-- Scheduler-progress weight of a worker status. -/
def wWeight : WStatus → Nat
  | WStatus.ready => 1
  | WStatus.working _ => 2
  | WStatus.done => 0
  | WStatus.dead => 0

/-- Termination measure for one worker: unclaimed items weigh two, its
own status weighs its remaining steps. -/
def poolMeasure {R : Type} (n : Nat) (s : PoolState R) (w : Nat) : Nat :=
  2 * (n - s.index) +
    (match s.workers[w]? with
     | some wk => wWeight wk.status
     | none => 0)

/-- The measure never exceeds `2n + 2`. -/
theorem poolMeasure_le {R : Type} (n : Nat) (s : PoolState R) (w : Nat) :
    poolMeasure n s w ≤ 2 * n + 2 := by
  have h1 : n - s.index ≤ n := Nat.sub_le n s.index
  cases hw : s.workers[w]? with
  | none =>
      have hm : poolMeasure n s w = 2 * (n - s.index) := by
        unfold poolMeasure
        rw [hw]
        rfl
      rw [hm]
      omega
  | some wk =>
      have hm : poolMeasure n s w = 2 * (n - s.index) + wWeight wk.status := by
        unfold poolMeasure
        rw [hw]
      have h2 : wWeight wk.status ≤ 2 := by
        cases wk.status <;> simp [wWeight]
      rw [hm]
      omega

/-- An unsettled worker's own step strictly decreases its measure. -/
theorem poolStep_progress {R E : Type} (f : Nat → Except E R) (n : Nat) (s : PoolState R)
    (w : Nat) (wk : Worker) (hw : s.workers[w]? = some wk)
    (hns : ¬ (wk.status = WStatus.done ∨ wk.status = WStatus.dead)) :
    ∃ wk' : Worker, (poolStep f n s w).workers[w]? = some wk' ∧
      poolMeasure n (poolStep f n s w) w < poolMeasure n s w := by
  have hwlt : w < s.workers.length := getElem?_some_lt hw
  have hmeq : poolMeasure n s w = 2 * (n - s.index) + wWeight wk.status := by
    unfold poolMeasure
    rw [hw]
  rw [poolStep_some f n s w wk hw]

  cases hst : wk.status with
  | done => exact absurd (Or.inl hst) hns
  | dead => exact absurd (Or.inr hst) hns
  | ready =>
      rw [stepDispatch_ready f n s w wk hst]
      by_cases hlt : s.index < n
      · have hstep : stepReady n s w wk =
            { s with index := s.index + 1,
                     workers := s.workers.set w
                       ⟨WStatus.working s.index, wk.claims ++ [s.index]⟩ } := by
          unfold stepReady
          rw [if_pos hlt]
        rw [hstep]
        refine ⟨⟨WStatus.working s.index, wk.claims ++ [s.index]⟩,
          List.getElem?_set_eq hwlt, ?_⟩
        have hm2 : poolMeasure n
            { s with index := s.index + 1,
                     workers := s.workers.set w
                       ⟨WStatus.working s.index, wk.claims ++ [s.index]⟩ } w =
            2 * (n - (s.index + 1)) + 2 := by
          unfold poolMeasure
          rw [List.getElem?_set_eq hwlt]
          rfl
        rw [hm2, hmeq, hst]
        simp only [wWeight]
        omega
      · have hstep : stepReady n s w wk =
            { s with workers := s.workers.set w ⟨WStatus.done, wk.claims⟩ } := by
          unfold stepReady
          rw [if_neg hlt]
        rw [hstep]
        refine ⟨⟨WStatus.done, wk.claims⟩, List.getElem?_set_eq hwlt, ?_⟩
        have hm2 : poolMeasure n
            { s with workers := s.workers.set w ⟨WStatus.done, wk.claims⟩ } w =
            2 * (n - s.index) + 0 := by
          unfold poolMeasure
          rw [List.getElem?_set_eq hwlt]
          rfl
        rw [hm2, hmeq, hst]
        simp only [wWeight]
        omega
  | working i0 =>
      rw [stepDispatch_working f n s w wk i0 hst]
      cases hfi : f i0 with
      | ok r0 =>
          have hstep : stepWorking f s w wk i0 =
              { s with results := s.results.set i0 (some r0),
                       workers := s.workers.set w ⟨WStatus.ready, wk.claims⟩ } := by
            unfold stepWorking
            rw [hfi]
          rw [hstep]
          refine ⟨⟨WStatus.ready, wk.claims⟩, List.getElem?_set_eq hwlt, ?_⟩
          have hm2 : poolMeasure n
              { s with results := s.results.set i0 (some r0),
                       workers := s.workers.set w ⟨WStatus.ready, wk.claims⟩ } w =
              2 * (n - s.index) + 1 := by
            unfold poolMeasure
            rw [List.getElem?_set_eq hwlt]
            rfl
          rw [hm2, hmeq, hst]
          simp only [wWeight]
          omega
      | error e0 =>
          have hstep : stepWorking f s w wk i0 =
              { s with workers := s.workers.set w ⟨WStatus.dead, wk.claims⟩ } := by
            unfold stepWorking
            rw [hfi]
          rw [hstep]
          refine ⟨⟨WStatus.dead, wk.claims⟩, List.getElem?_set_eq hwlt, ?_⟩
          have hm2 : poolMeasure n
              { s with workers := s.workers.set w ⟨WStatus.dead, wk.claims⟩ } w =
              2 * (n - s.index) + 0 := by
            unfold poolMeasure
            rw [List.getElem?_set_eq hwlt]
            rfl
          rw [hm2, hmeq, hst]
          simp only [wWeight]
          omega

/-- Stepping one worker enough times settles it. -/
theorem drain_worker {R E : Type} (f : Nat → Except E R) (n : Nat) :
    ∀ (k : Nat) (s : PoolState R) (w : Nat) (wk : Worker),
      s.workers[w]? = some wk → poolMeasure n s w ≤ k →
      ∃ wk' : Worker, (runPool f n s (List.replicate k w)).workers[w]? = some wk' ∧
        (wk'.status = WStatus.done ∨ wk'.status = WStatus.dead) := by
  intro k
  induction k with
  | zero =>
      intro s w wk hw hm
      refine ⟨wk, hw, ?_⟩
      have hmeq0 : poolMeasure n s w = 2 * (n - s.index) + wWeight wk.status := by
        unfold poolMeasure
        rw [hw]
      rw [hmeq0] at hm
      have hweight : wWeight wk.status = 0 := by omega
      cases hst : wk.status with
      | ready => rw [hst] at hweight; simp [wWeight] at hweight
      | working i => rw [hst] at hweight; simp [wWeight] at hweight
      | done => exact Or.inl rfl
      | dead => exact Or.inr rfl
  | succ k ih =>
      intro s w wk hw hm
      rw [List.replicate_succ, runPool_cons]
      by_cases hsettled : wk.status = WStatus.done ∨ wk.status = WStatus.dead
      · exact ⟨wk, runPool_frozen f n _ w wk
          (poolStep_frozen f n s w wk hw hsettled w) hsettled _, hsettled⟩
      · obtain ⟨wk', hw', hmlt⟩ := poolStep_progress f n s w wk hw hsettled
        exact ih (poolStep f n s w) w wk' hw' (by omega)

/-- Processing the blocks of a worker list settles each listed worker. -/
theorem drain_blocks {R E : Type} (f : Nat → Except E R) (n W : Nat) :
    ∀ (ws : List Nat) (s : PoolState R), PoolInv f n W s → (∀ w ∈ ws, w < W) →
      ∀ w ∈ ws, ∃ wk : Worker,
        (runPool f n s
          ((ws.map (fun w => List.replicate (2 * n + 2) w)).join)).workers[w]? = some wk ∧
        (wk.status = WStatus.done ∨ wk.status = WStatus.dead) := by
  intro ws
  induction ws with
  | nil =>
      intro s _ _ w hw
      exact absurd hw (List.not_mem_nil w)
  | cons w0 ws ih =>
      intro s hinv hbound w hw
      have hjoin : (((w0 :: ws).map (fun w => List.replicate (2 * n + 2) w)).join) =
          List.replicate (2 * n + 2) w0 ++
            ((ws.map (fun w => List.replicate (2 * n + 2) w)).join) := by
        simp
      rw [hjoin, runPool_append]
      have hinv1 : PoolInv f n W (runPool f n s (List.replicate (2 * n + 2) w0)) :=
        poolInv_run f n W s _ hinv
      rcases List.mem_cons.mp hw with rfl | hw'
      · have hwlt : w < s.workers.length := by
          rw [hinv.workers_len]
          exact hbound w hw
        obtain ⟨wk1, hw1, hst1⟩ := drain_worker f n (2 * n + 2) s w s.workers[w]
          (List.getElem?_eq_getElem hwlt) (poolMeasure_le n s w)
        exact ⟨wk1, runPool_frozen f n _ w wk1 hw1 hst1 _, hst1⟩
      · exact ih (runPool f n s (List.replicate (2 * n + 2) w0)) hinv1
          (fun w1 h1 => hbound w1 (List.mem_cons_of_mem w0 h1)) w hw'

/-- The canonical schedule: each worker in turn is stepped `2n + 2`
times, enough to settle it. -/
def drainSchedule (n W : Nat) : List Nat :=
  ((List.range W).map (fun w => List.replicate (2 * n + 2) w)).join

/-- The canonical schedule settles every worker — the pool call resolves. -/
theorem drainSchedule_settles {R E : Type} (f : Nat → Except E R) (n W : Nat) :
    Settled (runPool f n (initPool R n W) (drainSchedule n W)) := by
  intro wk hmem
  obtain ⟨w, hwlt, hweq⟩ := List.mem_iff_getElem.mp hmem
  have hw2 : (runPool f n (initPool R n W) (drainSchedule n W)).workers[w]? = some wk := by
    rw [List.getElem?_eq_getElem hwlt, hweq]
  have hlen : (runPool f n (initPool R n W) (drainSchedule n W)).workers.length = W :=
    (poolInv_run f n W _ _ (poolInv_init f n W)).workers_len
  have hwW : w < W := by
    rw [hlen] at hwlt
    exact hwlt
  obtain ⟨wk', hw', hst'⟩ := drain_blocks f n W (List.range W) (initPool R n W)
    (poolInv_init f n W) (fun w1 h1 => List.mem_range.mp h1) w (List.mem_range.mpr hwW)
  have heq : some wk = some wk' := by
    rw [← hw2]
    exact hw'.symm ▸ rfl
  injection heq with heq2
  rw [heq2]
  exact hst'

/-- In a settled run, every claimed successful job's slot is written. -/
theorem settled_claimed_filled {R E : Type} (f : Nat → Except E R) (n W : Nat)
    (s : PoolState R) (hinv : PoolInv f n W s) (hs : Settled s) :
    ∀ i, i < s.index → ∀ r, f i = Except.ok r → s.results[i]? = some (some r) := by
  intro i hi r hfi
  rcases hinv.claimed_complete i hi r hfi with h | ⟨w, wk, hw, hst⟩
  · exact h
  · rcases hs wk (getElem?_some_mem hw) with hd | hd <;> rw [hst] at hd <;> cases hd

/-- A throwing job's slot is never written. -/
theorem err_slot_none {R E : Type} (f : Nat → Except E R) (n W : Nat)
    (s : PoolState R) (hinv : PoolInv f n W s) :
    ∀ i, i < n → ∀ e, f i = Except.error e → s.results[i]? = some none := by
  intro i hi e hfe
  have hlen : i < s.results.length := by
    rw [hinv.results_len]
    exact hi
  cases hv : s.results[i]? with
  | none =>
      rw [List.getElem?_eq_none_iff] at hv
      omega
  | some v =>
      cases v with
      | none => rfl
      | some r =>
          have := hinv.sound i r hv
          rw [hfe] at this
          cases this

/-- In a settled run with at least one worker and no throwing job, every
slot is written with its own result. -/
theorem settled_all_filled {R E : Type} (f : Nat → Except E R) (n W : Nat)
    (s : PoolState R) (hinv : PoolInv f n W s) (hs : Settled s) (hW : 1 ≤ W)
    (hok : ∀ i, i < n → ∃ r, f i = Except.ok r) :
    ∀ i, i < n → ∃ r, f i = Except.ok r ∧ s.results[i]? = some (some r) := by
  have h0 : 0 < s.workers.length := by
    rw [hinv.workers_len]
    exact hW
  have hw0 : s.workers[0]? = some s.workers[0] := List.getElem?_eq_getElem h0
  have hidx : n ≤ s.index := by
    rcases hs s.workers[0] (getElem?_some_mem hw0) with hd | hd
    · exact hinv.done_n_le _ (getElem?_some_mem hw0) hd
    · obtain ⟨i, e, _, hin, hfe⟩ := hinv.dead_err _ (getElem?_some_mem hw0) hd
      obtain ⟨r, hr⟩ := hok i hin
      rw [hr] at hfe
      cases hfe
  intro i hi
  obtain ⟨r, hr⟩ := hok i hi
  exact ⟨r, hr, settled_claimed_filled f n W s hinv hs i (lt_of_lt_of_le hi hidx) r hr⟩

/-- The sequential path rejects on the first thrown error, whatever later
items would have computed. -/
theorem seqRun_error {T R E : Type} (job : T → Except E R) :
    ∀ (pre : List T) (x : T) (post : List T) (e : E) (acc : List (Option R)),
      (∀ y ∈ pre, ∃ r, job y = Except.ok r) → job x = Except.error e →
      seqRun job (pre ++ x :: post) acc = Except.error e := by
  intro pre
  induction pre with
  | nil =>
      intro x post e acc _ hx
      show seqRun job (x :: post) acc = Except.error e
      unfold seqRun
      rw [hx]
  | cons y pre ih =>
      intro x post e acc hpre hx
      obtain ⟨r, hr⟩ := hpre y (List.mem_cons_self y pre)
      show seqRun job (y :: (pre ++ x :: post)) acc = Except.error e
      unfold seqRun
      rw [hr]
      exact ih x post e (acc ++ [some r])
        (fun z hz => hpre z (List.mem_cons_of_mem y hz)) hx

/-- C9: under every schedule that settles the pool (every completion
order), the result array is pre-sized to the input length; a written slot
`i` holds precisely the result of the job for input item `i`; every item
claimed by any worker whose job succeeded appears in its slot even when
another item's job threw; and with no throwing job every slot is filled.
The call returns exactly this array. -/
theorem pool_results_input_order {T R E : Type} [Inhabited T] (items : List T)
    (concurrency : Nat) (job : T → Except E R) (σ : List Nat)
    (hc : 2 ≤ concurrency)
    (hs : Settled (runPool (poolJobs items job) items.length
      (initPool R items.length (min concurrency items.length)) σ)) :
    runWithConcurrency items concurrency job σ =
      Except.ok (runPool (poolJobs items job) items.length
        (initPool R items.length (min concurrency items.length)) σ).results ∧
    (runPool (poolJobs items job) items.length
      (initPool R items.length (min concurrency items.length)) σ).results.length =
      items.length ∧
    (∀ i r, (runPool (poolJobs items job) items.length
        (initPool R items.length (min concurrency items.length)) σ).results[i]? =
        some (some r) → poolJobs items job i = Except.ok r) ∧
    (∀ w : Nat, ∀ wk : Worker, (runPool (poolJobs items job) items.length
        (initPool R items.length (min concurrency items.length)) σ).workers[w]? =
        some wk →
      ∀ i ∈ wk.claims, ∀ r, poolJobs items job i = Except.ok r →
        (runPool (poolJobs items job) items.length
          (initPool R items.length (min concurrency items.length)) σ).results[i]? =
          some (some r)) ∧
    ((∀ i, i < items.length → ∃ r, poolJobs items job i = Except.ok r) →
      ∀ i, i < items.length → ∃ r, poolJobs items job i = Except.ok r ∧
        (runPool (poolJobs items job) items.length
          (initPool R items.length (min concurrency items.length)) σ).results[i]? =
          some (some r)) := by
  have hinv : PoolInv (poolJobs items job) items.length (min concurrency items.length)
      (runPool (poolJobs items job) items.length
        (initPool R items.length (min concurrency items.length)) σ) :=
    poolInv_run _ _ _ _ _ (poolInv_init _ _ _)
  refine ⟨?_, hinv.results_len, hinv.sound, ?_, ?_⟩
  · unfold runWithConcurrency
    rw [if_neg (by omega)]
  · intro w wk hw i hi r hr
    obtain ⟨hidx, _⟩ := hinv.claims_bound wk (getElem?_some_mem hw) i hi
    exact settled_claimed_filled _ _ _ _ hinv hs i hidx r hr
  · intro hok
    rcases Nat.eq_zero_or_pos items.length with hz | hpos
    · intro i hi
      omega
    · exact settled_all_filled _ _ _ _ hinv hs (by omega) hok

/-- C9 witness: three items at concurrency 2 under a settled schedule;
item 1's job throws, items 0 and 2 still land in their slots. -/
theorem pool_results_input_order_witness :
    (2 ≤ 2 ∧ Settled (runPool
      (poolJobs [10, 20, 30] (fun x => if x = 20 then Except.error "boom"
        else Except.ok (x + 1)))
      (List.length [10, 20, 30])
      (initPool Nat (List.length [10, 20, 30]) (min 2 (List.length [10, 20, 30])))
      [0, 1, 0, 1, 0, 0, 0, 1])) ∧
    runWithConcurrency [10, 20, 30] 2
      (fun x => if x = 20 then Except.error "boom" else Except.ok (x + 1))
      [0, 1, 0, 1, 0, 0, 0, 1] =
      Except.ok [some 11, none, some 31] :=
  ⟨⟨le_rfl, by decide⟩, by
    have h := pool_results_input_order [10, 20, 30] 2
      (fun x => if x = 20 then Except.error "boom" else Except.ok (x + 1))
      [0, 1, 0, 1, 0, 0, 0, 1] le_rfl (by decide)
    rw [h.1]
    decide⟩

/-- C10: the pool's behavior on a throwing job differs by concurrency.
Sequentially (`concurrency <= 1`) a thrown error rejects the whole call —
the result does not depend on any later item.  At `concurrency > 1` some
finite schedule settles every worker and the call resolves; a throwing
item's slot is left unset under every schedule; and a worker that stopped
on an error is frozen — its status and claim list never change under any
further scheduling. -/
theorem pool_throw_semantics {T R E : Type} [Inhabited T] (items : List T)
    (concurrency : Nat) (job : T → Except E R) :
    (∀ (pre : List T) (x : T) (post : List T) (e : E) (σ : List Nat), concurrency ≤ 1 →
      (∀ y ∈ pre, ∃ r, job y = Except.ok r) → job x = Except.error e →
      runWithConcurrency (pre ++ x :: post) concurrency job σ = Except.error e) ∧
    (1 < concurrency → ∃ σ, Settled (runPool (poolJobs items job) items.length
        (initPool R items.length (min concurrency items.length)) σ) ∧
      ∃ out, runWithConcurrency items concurrency job σ = Except.ok out) ∧
    (∀ (σ : List Nat) (i : Nat), i < items.length → ∀ e : E,
      poolJobs items job i = Except.error e →
      (runPool (poolJobs items job) items.length
        (initPool R items.length (min concurrency items.length)) σ).results[i]? =
        some none) ∧
    (∀ (σ σ2 : List Nat) (w : Nat), ∀ wk : Worker,
      (runPool (poolJobs items job) items.length
        (initPool R items.length (min concurrency items.length)) σ).workers[w]? =
        some wk →
      wk.status = WStatus.dead →
      (runPool (poolJobs items job) items.length
        (initPool R items.length (min concurrency items.length))
        (σ ++ σ2)).workers[w]? = some wk) := by
  refine ⟨?_, ?_, ?_, ?_⟩
  · intro pre x post e σ hc hpre hx
    unfold runWithConcurrency
    rw [if_pos hc]
    exact seqRun_error job pre x post e [] hpre hx
  · intro hc
    refine ⟨drainSchedule items.length (min concurrency items.length),
      drainSchedule_settles _ _ _,
      (runPool (poolJobs items job) items.length
        (initPool R items.length (min concurrency items.length))
        (drainSchedule items.length (min concurrency items.length))).results, ?_⟩
    unfold runWithConcurrency
    rw [if_neg (by omega)]
  · intro σ i hi e hfe
    have hinv := poolInv_run (poolJobs items job) items.length
      (min concurrency items.length)
      (initPool R items.length (min concurrency items.length)) σ (poolInv_init _ _ _)
    exact err_slot_none _ _ _ _ hinv i hi e hfe
  · intro σ σ2 w wk hw hdead
    rw [runPool_append]
    exact runPool_frozen _ _ _ w wk hw (Or.inr hdead) σ2

/-- C10 witness: the concrete pool from the C9 scenario — sequential run
rejects with the thrown error, concurrency-2 run resolves with the
throwing slot unset, and the dead worker keeps its claim list under
further scheduling. -/
theorem pool_throw_semantics_witness :
    ((1 : Nat) ≤ 1 ∧ (∀ y ∈ [10], ∃ r, (fun x => if x = 20 then Except.error "boom"
        else Except.ok (x + 1)) y = Except.ok r) ∧
      (fun x => if x = 20 then Except.error "boom" else Except.ok (x + 1)) 20 =
        Except.error "boom") ∧
    runWithConcurrency [10, 20, 30] 1
      (fun x => if x = 20 then Except.error "boom" else Except.ok (x + 1)) [] =
      Except.error "boom" ∧
    (∃ σ, Settled (runPool
        (poolJobs [10, 20, 30] (fun x => if x = 20 then Except.error "boom"
          else Except.ok (x + 1)))
        (List.length [10, 20, 30])
        (initPool Nat (List.length [10, 20, 30]) (min 2 (List.length [10, 20, 30]))) σ) ∧
      ∃ out, runWithConcurrency [10, 20, 30] 2
        (fun x => if x = 20 then Except.error "boom" else Except.ok (x + 1)) σ =
        Except.ok out) ∧
    (runPool (poolJobs [10, 20, 30] (fun x => if x = 20 then Except.error "boom"
        else Except.ok (x + 1)))
      (List.length [10, 20, 30])
      (initPool Nat (List.length [10, 20, 30]) (min 2 (List.length [10, 20, 30])))
      [0, 1, 0, 1, 0, 0, 0, 1]).results[1]? = some none ∧
    (runPool (poolJobs [10, 20, 30] (fun x => if x = 20 then Except.error "boom"
        else Except.ok (x + 1)))
      (List.length [10, 20, 30])
      (initPool Nat (List.length [10, 20, 30]) (min 2 (List.length [10, 20, 30])))
      ([0, 1, 0, 1, 0, 0, 0, 1] ++ [1, 1, 0, 1])).workers[1]? =
      some ⟨WStatus.dead, [1]⟩ :=
  ⟨⟨le_rfl,
      by
        intro y hy
        rw [List.mem_singleton] at hy
        subst hy
        exact ⟨11, rfl⟩,
      rfl⟩,
    (pool_throw_semantics [10, 20, 30] 1
      (fun x => if x = 20 then Except.error "boom" else Except.ok (x + 1))).1
      [10] 20 [30] "boom" [] le_rfl
      (by
        intro y hy
        rw [List.mem_singleton] at hy
        subst hy
        exact ⟨11, rfl⟩)
      rfl,
    (pool_throw_semantics [10, 20, 30] 2
      (fun x => if x = 20 then Except.error "boom" else Except.ok (x + 1))).2.1
      (by omega),
    (pool_throw_semantics [10, 20, 30] 2
      (fun x => if x = 20 then Except.error "boom" else Except.ok (x + 1))).2.2.1
      [0, 1, 0, 1, 0, 0, 0, 1] 1 (by decide) "boom" rfl,
    (pool_throw_semantics [10, 20, 30] 2
      (fun x => if x = 20 then Except.error "boom" else Except.ok (x + 1))).2.2.2
      [0, 1, 0, 1, 0, 0, 0, 1] [1, 1, 0, 1] 1 ⟨WStatus.dead, [1]⟩ (by decide) rfl⟩

end TaskRunner
